import Mathlib

/-!
Verification development for the xcbuild filesystem abstraction layer
(libutil): a shallow embedding of MemoryFilesystem.cpp and the relevant
parts of DefaultFilesystem.cpp, with the path utilities from FSUtil
modelled from the specification (FSUtil.cpp is not among the provided
sources).  File contents are modelled as lists of byte values (Nat),
paths as strings.
-/

namespace XCB

/-- First byte of a string; the empty string yields the NUL character,
matching the guaranteed null terminator that std::string keeps at
position size() and that a front()/operator[] access on an empty string
reads in practice. -/
def firstByte (s : String) : Char :=
  match s.toList with
  | [] => Char.ofNat 0
  | c :: _ => c

/-- Modelled from the spec: FSUtil::IsAbsolute is true iff the first byte
of the path is a slash. -/
def isAbsolute (s : String) : Bool := firstByte s = '/'

/-- Split a character list at every occurrence of the separator; the
accumulator holds the current (reversed) component.  Always returns at
least one component. -/
def splitCharAux (sep : Char) : List Char → List Char → List (List Char)
  | [], acc => [acc.reverse]
  | c :: rest, acc =>
    if c = sep then acc.reverse :: splitCharAux sep rest []
    else splitCharAux sep rest (c :: acc)

/-- Split a path string into its slash-separated segments, mirroring the
substr/find loop of MemoryFilesystem's WalkPath. -/
def splitSlash (s : String) : List String :=
  (splitCharAux '/' s.toList []).map (fun cs => String.mk cs)

/-- Join segments with slashes (inverse of splitSlash on well-formed
component lists). -/
def joinSlash : List String → String
  | [] => ""
  | [x] => x
  | x :: y :: rest => x ++ "/" ++ joinSlash (y :: rest)

/-- One step of lexical `..` resolution over the component stack, following
the spec's description of NormalizePath: a leading `..` of an absolute path
is discarded, a `..` in a relative path is preserved only when no prior
real component can cancel it. -/
def normStep (abs : Bool) (acc : List String) (c : String) : List String :=
  if c = ".." then
    match acc with
    | [] => if abs then [] else [".."]
    | x :: rest => if x = ".." then c :: x :: rest else rest
  else c :: acc

/-- Modelled from the spec: FSUtil::NormalizePath collapses repeated
separators, resolves `.` and `..` lexically, removes the trailing
separator except for the root, and returns the empty string on empty
input. -/
def normalizePath (p : String) : String :=
  if p = "" then ""
  else
    let abs := isAbsolute p
    let comps := (splitSlash p).filter (fun c => c != "" && c != ".")
    let stack := comps.foldl (normStep abs) []
    if abs then "/" ++ joinSlash stack.reverse else joinSlash stack.reverse

/-- Modelled from the spec: FSUtil::GetDirectoryName is the longest prefix
of the path before the final slash, empty when the path contains no
separator. -/
def getDirectoryName (s : String) : String :=
  String.mk ((((s.toList).reverse.dropWhile (fun c => c != '/')).drop 1).reverse)

/-- Last element of a component list (empty string for an empty list). -/
def lastName : List String → String
  | [] => ""
  | [x] => x
  | _ :: y :: rest => lastName (y :: rest)

/-! ### The in-memory tree (MemoryFilesystem::Entry) -/

/-- MemoryFilesystem::Entry: a named node that is either a regular file
with byte contents or a directory with an ordered list of children. -/
inductive Entry where
  | file (name : String) (contents : List Nat)
  | dir (name : String) (children : List Entry)

mutual

/-- Structural equality test for entries. -/
def Entry.beq : Entry → Entry → Bool
  | .file n c, .file m d => n == m && c == d
  | .dir n ch, .dir m dh => n == m && Entry.beqList ch dh
  | _, _ => false

/-- Structural equality test for children lists. -/
def Entry.beqList : List Entry → List Entry → Bool
  | [], [] => true
  | a :: as, b :: bs => Entry.beq a b && Entry.beqList as bs
  | _, _ => false

end

mutual

theorem Entry.beq_eq : ∀ a b : Entry, Entry.beq a b = true ↔ a = b
  | .file n c, .file m d => by
    simp [Entry.beq]
  | .file _ _, .dir _ _ => by simp [Entry.beq]
  | .dir _ _, .file _ _ => by simp [Entry.beq]
  | .dir n ch, .dir m dh => by
    simp [Entry.beq, Entry.beqList_eq ch dh]

theorem Entry.beqList_eq : ∀ as bs : List Entry, Entry.beqList as bs = true ↔ as = bs
  | [], [] => by simp [Entry.beqList]
  | [], _ :: _ => by simp [Entry.beqList]
  | _ :: _, [] => by simp [Entry.beqList]
  | a :: as, b :: bs => by
    simp [Entry.beqList, Entry.beq_eq a b, Entry.beqList_eq as bs]

end

instance : DecidableEq Entry := fun a b =>
  decidable_of_iff (Entry.beq a b = true) (Entry.beq_eq a b)

/-- The node's name. -/
def Entry.name : Entry → String
  | .file n _ => n
  | .dir n _ => n

/-- The children list; empty for a file (a file's children() is never
consulted by the walker). -/
def Entry.childrenOf : Entry → List Entry
  | .file _ _ => []
  | .dir _ ch => ch

/-- Type test: directory. -/
def Entry.isDirB : Entry → Bool
  | .dir _ _ => true
  | _ => false

/-- Type test: regular file. -/
def Entry.isFileB : Entry → Bool
  | .file _ _ => true
  | _ => false

/-- Replace the children list of a directory (identity on files). -/
def Entry.withChildren : Entry → List Entry → Entry
  | .file n c, _ => .file n c
  | .dir n _, ch => .dir n ch

/-- Entry::child: the first child carrying the given name, or none. -/
def findChild (children : List Entry) (name : String) : Option Entry :=
  children.find? (fun c => c.name == name)

/-- Replace the first child carrying the given name (models mutation of
the tree through the pointer returned by Entry::child). -/
def setChild : List Entry → String → Entry → List Entry
  | [], _, _ => []
  | c :: rest, name, e =>
    if c.name == name then e :: rest else c :: setChild rest name e

/-- MemoryFilesystem's constructor: the root is a directory named "/"
holding the initial entries verbatim. -/
def mkFS (entries : List Entry) : Entry := .dir "/" entries

/-! ### The path walk (WalkPath) -/

/-- Outcome of one callback invocation inside WalkPath, mirroring the
pointer the C++ lambda returns together with the mutation it performed on
parent->children(): `fail` is a null return without mutation, `toParent`
returns the parent (children possibly rewritten), `toChild` returns the
first child of the rewritten children list carrying the given name. -/
inductive CbOut where
  | fail
  | toParent (children : List Entry)
  | toChild (children : List Entry) (name : String)

/-- A WalkPath visitor: receives the current directory's children, the
path component, and the looked-up entry (the current directory itself
when the component is empty). -/
def Cb := List Entry → String → Option Entry → CbOut

/-- Encodes a visitor "return entry;" for a found entry: for the empty
component the entry is the parent itself. -/
def contin (children : List Entry) (name : String) : CbOut :=
  if name = "" then .toParent children else .toChild children name

/-- The component loop of WalkPath: at each component the child is looked
up (the current directory itself for an empty component); the visitor runs
at every component when `all` is set, otherwise only at the final one; the
walk continues only through directories; the Bool is the walk's overall
result and the Entry is the updated subtree rooted at the walk's start. -/
def walkGo (all : Bool) (cb : Cb) : Entry → List String → Bool × Entry
  | cur, [] => (false, cur)
  | cur, name :: rest =>
    let children := cur.childrenOf
    let found := if name = "" then some cur else findChild children name
    if all || rest.isEmpty then
      match cb children name found with
      | .fail => (false, cur)
      | .toParent ch2 =>
        let cur2 := cur.withChildren ch2
        if rest.isEmpty then (true, cur2) else walkGo all cb cur2 rest
      | .toChild ch2 n =>
        let cur2 := cur.withChildren ch2
        if rest.isEmpty then (true, cur2)
        else
          match findChild ch2 n with
          | none => (false, cur2)
          | some next =>
            if next.isDirB then
              let r := walkGo all cb next rest
              (r.1, cur2.withChildren (setChild ch2 n r.2))
            else (false, cur2)
    else
      match found with
      | none => (false, cur)
      | some next =>
        if name = "" then walkGo all cb cur rest
        else if next.isDirB then
          let r := walkGo all cb next rest
          (r.1, cur.withChildren (setChild children name r.2))
        else (false, cur)

/-- Read-only projection of the walk: the entry the final component
resolves to (none when the path cannot be walked or the leaf is absent).
This captures WalkPath for the non-mutating visitors, which merely
inspect the final entry. -/
def lookupGo : Entry → List String → Option Entry
  | _, [] => none
  | cur, [name] => if name = "" then some cur else findChild cur.childrenOf name
  | cur, name :: rest =>
    let next := if name = "" then some cur else findChild cur.childrenOf name
    match next with
    | none => none
    | some nx => if nx.isDirB then lookupGo nx rest else none

/-- WalkPath's entry point: absolute paths only, then normalization (empty
result fails), then the component loop. -/
def walkPath (all : Bool) (cb : Cb) (root : Entry) (path : String) : Bool × Entry :=
  if isAbsolute path then
    if normalizePath path = "" then (false, root)
    else walkGo all cb root (splitSlash (normalizePath path))
  else (false, root)

/-- Read-only entry point of the walk. -/
def lookupPath (root : Entry) (path : String) : Option Entry :=
  if isAbsolute path then
    if normalizePath path = "" then none
    else lookupGo root (splitSlash (normalizePath path))
  else none

/-! ### MemoryFilesystem operations -/

/-- MemoryFilesystem::exists. -/
def memExists (root : Entry) (path : String) : Bool :=
  (lookupPath root path).isSome

/-- MemoryFilesystem::isReadable (equivalent to exists). -/
def memIsReadable (root : Entry) (path : String) : Bool := memExists root path

/-- MemoryFilesystem::isWritable (equivalent to exists). -/
def memIsWritable (root : Entry) (path : String) : Bool := memExists root path

/-- MemoryFilesystem::isExecutable (equivalent to exists). -/
def memIsExecutable (root : Entry) (path : String) : Bool := memExists root path

/-- MemoryFilesystem::isFile. -/
def memIsFile (root : Entry) (path : String) : Bool :=
  match lookupPath root path with
  | some (.file _ _) => true
  | _ => false

/-- MemoryFilesystem::isDirectory. -/
def memIsDirectory (root : Entry) (path : String) : Bool :=
  match lookupPath root path with
  | some (.dir _ _) => true
  | _ => false

/-- MemoryFilesystem::isSymbolicLink: the backend has no link support. -/
def memIsSymbolicLink (_root : Entry) (_path : String) : Bool := false

/-- MemoryFilesystem::readSymbolicLink: always absent. -/
def memReadSymbolicLink (_root : Entry) (_path : String) : Option String := none

/-- MemoryFilesystem::writeSymbolicLink: always fails. -/
def memWriteSymbolicLink (_root : Entry) (_target _path : String) : Bool := false

/-- MemoryFilesystem::copySymbolicLink: always fails. -/
def memCopySymbolicLink (_root : Entry) (_from _to : String) : Bool := false

/-- MemoryFilesystem::removeSymbolicLink: always fails. -/
def memRemoveSymbolicLink (_root : Entry) (_path : String) : Bool := false

/-- The createFile visitor: an existing file is accepted unchanged, an
existing non-file fails, an absent leaf is appended as an empty file. -/
def createFileCb : Cb := fun children name found =>
  match found with
  | some e => if e.isFileB then contin children name else .fail
  | none => .toChild (children ++ [.file name []]) name

/-- MemoryFilesystem::createFile. -/
def memCreateFile (root : Entry) (path : String) : Bool × Entry :=
  walkPath false createFileCb root path

/-- The write visitor: an existing file has its contents replaced, an
existing non-file fails, an absent leaf is appended with the contents. -/
def writeCb (contents : List Nat) : Cb := fun children name found =>
  match found with
  | some e =>
    if e.isFileB then .toChild (setChild children name (.file name contents)) name
    else .fail
  | none => .toChild (children ++ [.file name contents]) name

/-- MemoryFilesystem::write. -/
def memWrite (root : Entry) (contents : List Nat) (path : String) : Bool × Entry :=
  walkPath false (writeCb contents) root path

/-- The removeFile visitor: a found file is erased from the parent's
children (erase/remove_if removes every child carrying the name); anything
else fails. -/
def removeFileCb : Cb := fun children name found =>
  match found with
  | some e =>
    if e.isFileB then .toParent (children.filter (fun c => c.name != name))
    else .fail
  | none => .fail

/-- MemoryFilesystem::removeFile. -/
def memRemoveFile (root : Entry) (path : String) : Bool × Entry :=
  walkPath false removeFileCb root path

/-- The createDirectory visitor: an existing directory is accepted, an
existing non-directory fails, an absent component is appended as an empty
directory. -/
def createDirCb : Cb := fun children name found =>
  match found with
  | some e => if e.isDirB then contin children name else .fail
  | none => .toChild (children ++ [.dir name []]) name

/-- MemoryFilesystem::createDirectory: the visitor runs at every component
when recursive. -/
def memCreateDirectory (root : Entry) (path : String) (recursive : Bool) : Bool × Entry :=
  walkPath recursive createDirCb root path

/-- The removeDirectory visitor: a found directory is erased (when
recursive, together with its subtree; otherwise only when empty); anything
else fails. -/
def removeDirCb (recursive : Bool) : Cb := fun children name found =>
  match found with
  | some e =>
    if e.isDirB then
      if !recursive && !e.childrenOf.isEmpty then .fail
      else .toParent (children.filter (fun c => c.name != name))
    else .fail
  | none => .fail

/-- MemoryFilesystem::removeDirectory. -/
def memRemoveDirectory (root : Entry) (path : String) (recursive : Bool) : Bool × Entry :=
  walkPath false (removeDirCb recursive) root path

/-! ### read -/

/-- Result of MemoryFilesystem::read: `undef` marks an execution that in
C++ constructs a vector from an invalid iterator range (undefined
behavior), `failure` a false return, `success` a true return with the
bytes written to the out-parameter. -/
inductive ReadResult where
  | undef
  | failure
  | success (contents : List Nat)
deriving DecidableEq

/-- The window [a, b) of a byte list as the C++ iterator-pair vector
constructor sees it: valid only when a ≤ b ≤ size, otherwise undefined
(none). -/
def sliceOpt (l : List Nat) (a b : Nat) : Option (List Nat) :=
  if a ≤ b ∧ b ≤ l.length then some ((l.drop a).take (b - a)) else none

/-- MemoryFilesystem::read: the walked-to entry must be a file; with zero
offset and no length the whole contents are returned, otherwise the
window up to `offset + length` (length present) or `size - offset`
(length absent, size_t arithmetic as written in the source) is copied. -/
def memRead (root : Entry) (path : String) (offset : Nat) (length : Option Nat) :
    ReadResult :=
  match lookupPath root path with
  | some (.file _ contents) =>
    if offset = 0 ∧ length = none then .success contents
    else
      let e := match length with
        | some l => offset + l
        | none => contents.length - offset
      match sliceOpt contents offset e with
      | some out => .success out
      | none => .undef
  | _ => .failure

/-! ### readDirectory -/

/-- Relative path of a child below the optional subpath. -/
def joinSub : Option String → String → String
  | none, n => n
  | some s, n => s ++ "/" ++ n

mutual

/-- The `process` closure of MemoryFilesystem::readDirectory: report every
child of the directory, then (when recursive) process the subdirectories
in order. -/
def reportEntry (rec : Bool) (sub : Option String) : Entry → List String
  | .file _ _ => []
  | .dir _ children =>
    children.map (fun c => joinSub sub c.name) ++
    (if rec then reportChildren rec sub children else [])

/-- Recursion of `process` over the children list. -/
def reportChildren (rec : Bool) (sub : Option String) : List Entry → List String
  | [] => []
  | c :: rest =>
    (if c.isDirB then reportEntry rec (some (joinSub sub c.name)) c else []) ++
    reportChildren rec sub rest

end

/-- MemoryFilesystem::readDirectory: the list of paths passed to the
callback in order, or none when the call returns false. -/
def memReadDirectory (root : Entry) (path : String) (rec : Bool) :
    Option (List String) :=
  match lookupPath root path with
  | some e => if e.isDirB then some (reportEntry rec none e) else none
  | none => none

/-- MemoryFilesystem::resolvePath. -/
def memResolvePath (root : Entry) (path : String) : String :=
  if memExists root path then normalizePath path else ""

/-! ### DefaultFilesystem (physical backend), over an abstract POSIX host -/

/-- Filesystem::Type. -/
inductive FsType where
  | file
  | symbolicLink
  | directory
deriving DecidableEq

/-- Abstract host state for the physical backend: `typeOf` is lstat-based
DefaultFilesystem::type, `writable` is access(path, W_OK) == 0, and
`fopenWOk` tells whether fopen(path, "w") yields a stream. -/
structure Host where
  typeOf : String → Option FsType
  writable : String → Bool
  fopenWOk : String → Bool

/-- DefaultFilesystem::createFile: a writable path is accepted outright
(whatever it is); otherwise the result is that of opening the path for
writing. -/
def defaultCreateFile (h : Host) (p : String) : Bool :=
  if h.writable p then true else h.fopenWOk p

/-- The ascent loop of DefaultFilesystem::createDirectory's recursive
branch, with fuel: while type(path) is not a directory, push `current`
and replace it by its directory name.  The loop guard reads the original
`path`, exactly as the source does; none models exhaustion of any finite
fuel, i.e. non-termination. -/
def buildCreateStack (h : Host) (path : String) :
    Nat → String → List String → Option (List String)
  | 0, _, _ => none
  | n + 1, current, create =>
    if h.typeOf path = some .directory then some create
    else buildCreateStack h path n (getDirectoryName current) (current :: create)

/-! ### Tree invariants -/

/-- No two children of one directory carry the same name. -/
def nodupNames : List Entry → Bool
  | [] => true
  | c :: rest => rest.all (fun d => d.name != c.name) && nodupNames rest

mutual

/-- The duplicate-free-siblings invariant, recursively through the tree. -/
def entryND : Entry → Bool
  | .file _ _ => true
  | .dir _ ch => nodupNames ch && childrenND ch

/-- entryND over a children list. -/
def childrenND : List Entry → Bool
  | [] => true
  | c :: rest => entryND c && childrenND rest

end

/-- A valid path component: nonempty, not `.` or `..`, and slash-free. -/
def wfName (n : String) : Bool :=
  n != "" && n != "." && n != ".." && !(n.toList.contains '/')

mutual

/-- Well-formed tree: duplicate-free siblings whose names are valid path
components, recursively. -/
def entryWF : Entry → Bool
  | .file _ _ => true
  | .dir _ ch => nodupNames ch && childrenWF ch

/-- entryWF over a children list. -/
def childrenWF : List Entry → Bool
  | [] => true
  | c :: rest => wfName c.name && entryWF c && childrenWF rest

end

/-! ### Component-level views of readDirectory output -/

mutual

/-- The component lists of the paths reportEntry emits (recursive mode),
with the accumulated subpath as a component list. -/
def reportCompsE (sub : List String) : Entry → List (List String)
  | .file _ _ => []
  | .dir _ children =>
    children.map (fun c => sub ++ [c.name]) ++ reportCompsC sub children

/-- reportCompsE over a children list. -/
def reportCompsC (sub : List String) : List Entry → List (List String)
  | [] => []
  | c :: rest =>
    (if c.isDirB then reportCompsE (sub ++ [c.name]) c else []) ++
    reportCompsC sub rest

end

mutual

/-- The canonical descendant paths of an entry, as component lists: every
node of the subtree contributes the path from the entry down to it. -/
def descPathsE : Entry → List (List String)
  | .file _ _ => []
  | .dir _ children => descPathsC children

/-- descPathsE over a children list: each child contributes its own name
followed by its descendants prefixed with that name. -/
def descPathsC : List Entry → List (List String)
  | [] => []
  | c :: rest =>
    ([c.name] :: (descPathsE c).map (fun l => c.name :: l)) ++ descPathsC rest

end

/-! ### Concrete fixtures -/

/-- Fixture: in-memory filesystem holding /p with contents "abcdef". -/
def fsAbc : Entry := mkFS [.file "p" [97, 98, 99, 100, 101, 102]]

/-- Fixture: a host on which no path exists. -/
def hostNone : Host := ⟨fun _ => none, fun _ => false, fun _ => false⟩

/-- Fixture: a host carrying one writable directory at /d. -/
def hostDirW : Host :=
  ⟨fun p => if p = "/d" then some .directory else none, fun p => p == "/d",
    fun _ => false⟩

/-- Fixture: initial entries with duplicate sibling names. -/
def fsDup : Entry := mkFS [.file "a" [], .file "a" [1]]

/-- Fixture: a child literally named ".". -/
def fsDot : Entry := mkFS [.file "." []]

/-- Fixture: tree with /r/a and /r/b/c. -/
def fsR : Entry := mkFS [.dir "r" [.file "a" [], .dir "b" [.file "c" []]]]

/-- Elements of the normalization stack: nonempty and slash-free. -/
def goodComp (e : String) : Prop := e ≠ "" ∧ '/' ∉ e.toList

/-- A visitor preserves the duplicate-free invariant when, fed the actual
lookup result, any children list it returns is again duplicate-free with
duplicate-free members. -/
def CbPreservesND (cb : Cb) : Prop :=
  ∀ (ch : List Entry) (name : String) (found : Option Entry),
    (name ≠ "" → found = findChild ch name) →
    (name = "" → found.isSome = true) →
    nodupNames ch = true → childrenND ch = true →
    (match cb ch name found with
     | .fail => True
     | .toParent ch2 => nodupNames ch2 = true ∧ childrenND ch2 = true
     | .toChild ch2 _ => nodupNames ch2 = true ∧ childrenND ch2 = true)

/-- The accumulated subpath as an optional string, as readDirectory's
process closure carries it: none for the root of the enumeration, the
joined components otherwise. -/
def optJoin : List String → Option String
  | [] => none
  | x :: rest => some (joinSlash (x :: rest))

/-- b is the path of an immediate child of the directory at q. -/
def childAt (q b : List String) : Prop := ∃ x, b = q ++ [x]

/-- a is the path of an entry strictly inside a subdirectory of q. -/
def insideAt (q a : List String) : Prop := ∃ x y ys, a = q ++ x :: y :: ys

/-- Breadth-within-a-directory before depth, seen from the directory at q:
no entry inside a subdirectory of q is reported before an immediate child
of q. -/
def noInversion (q : List String) (out : List (List String)) : Prop :=
  out.Pairwise (fun a b => ¬(insideAt q a ∧ childAt q b))

/-! ## Theorems -/

theorem isAbsolute_empty : isAbsolute "" = false := by decide

/-- C10: every in-memory backend operation invoked with the empty string as
the path is total and returns failure (false, absent, or the empty string)
without touching the tree: the walk's leading absoluteness test reads the
null terminator on the empty input, never an out-of-bounds byte, and the
walk fails before anything else happens. -/
theorem c10_empty_path_total_failure (root : Entry) (c : List Nat) (t : String)
    (offset : Nat) (length : Option Nat) (r : Bool) :
    memExists root "" = false ∧
    memIsReadable root "" = false ∧
    memIsWritable root "" = false ∧
    memIsExecutable root "" = false ∧
    memIsFile root "" = false ∧
    memIsDirectory root "" = false ∧
    memIsSymbolicLink root "" = false ∧
    memReadSymbolicLink root "" = none ∧
    memRead root "" offset length = .failure ∧
    memCreateFile root "" = (false, root) ∧
    memWrite root c "" = (false, root) ∧
    memRemoveFile root "" = (false, root) ∧
    memCreateDirectory root "" r = (false, root) ∧
    memRemoveDirectory root "" r = (false, root) ∧
    memReadDirectory root "" r = none ∧
    memWriteSymbolicLink root t "" = false ∧
    memCopySymbolicLink root t "" = false ∧
    memRemoveSymbolicLink root "" = false ∧
    memResolvePath root "" = "" := by
  simp [memExists, memIsReadable, memIsWritable, memIsExecutable, memIsFile,
    memIsDirectory, memIsSymbolicLink, memReadSymbolicLink, memRead,
    memCreateFile, memWrite, memRemoveFile, memCreateDirectory,
    memRemoveDirectory, memReadDirectory, memWriteSymbolicLink,
    memCopySymbolicLink, memRemoveSymbolicLink, memResolvePath, lookupPath,
    walkPath, isAbsolute_empty]

/-- C5 (code bug): the in-memory read with a positive offset and no length
computes the window end as size - offset instead of size, so on /p =
"abcdef" an offset-2 read yields "cd" (bytes 99, 100) instead of the
claimed suffix "cdef". -/
theorem c5_read_offset_suffix_bug :
    memRead fsAbc "/p" 2 none = .success [99, 100] ∧
    memRead fsAbc "/p" 2 none ≠ .success [99, 100, 101, 102] := by decide

/-- C4 (code bug): the in-memory read performs no range check at all: an
out-of-range window (offset 4, length 5 on a 6-byte file) drives the
iterator-pair vector constructor out of bounds — undefined behavior — where
the claim requires a false return. -/
theorem c4_read_out_of_range_undefined :
    memRead fsAbc "/p" 4 (some 5) = .undef := by decide

/-- C1 (code bug): the ascent loop of the physical recursive createDirectory
tests type(path) — the unchanging original argument — instead of the current
ancestor, so whenever the original path is not already a directory the loop
never terminates: the fuelled model returns none for every fuel value. -/
theorem c1_createDirectory_ascent_diverges (h : Host) (path : String)
    (hnd : h.typeOf path ≠ some .directory) :
    ∀ (n : Nat) (current : String) (create : List String),
      buildCreateStack h path n current create = none := by
  intro n
  induction n with
  | zero => intro current create; rfl
  | succ k ih =>
    intro current create
    simp only [buildCreateStack, if_neg hnd]
    exact ih _ _

theorem c1_createDirectory_ascent_diverges_witness :
    hostNone.typeOf "/x/y" ≠ some .directory ∧
    buildCreateStack hostNone "/x/y" 1000 "/x/y" [] = none :=
  ⟨by decide,
    c1_createDirectory_ascent_diverges hostNone "/x/y" (by decide) 1000 "/x/y" []⟩

/-- C2 counterexample: on the in-memory backend, removeDirectory of the
nonexistent path /r (recursive) returns false while exists(/r) is also
false afterwards, so "exists(p) is false iff the call returned true" fails. -/
theorem c2_counterexample :
    (memRemoveDirectory (mkFS []) "/r" true).1 = false ∧
    memExists (memRemoveDirectory (mkFS []) "/r" true).2 "/r" = false := by decide

/-- C3 counterexample: a tree built from an initial entry literally named
"." makes readDirectory report ".", contradicting "never reports . or ..". -/
theorem c3_counterexample :
    memReadDirectory fsDot "/" true = some ["."] := by decide

/-- C7 counterexample: on the physical backend createFile first probes
access(path, W_OK); a writable directory passes the probe, so createFile
returns true where the claim requires false. -/
theorem c7_counterexample :
    hostDirW.typeOf "/d" = some .directory ∧
    defaultCreateFile hostDirW "/d" = true := by decide

/-- C9 counterexample: the constructor stores initial_entries verbatim, so a
tree built from two sibling files both named "a" violates the
duplicate-free invariant. -/
theorem c9_counterexample : entryND fsDup = false := by decide

/-- C6: on the in-memory backend, reading a file of contents c with offset
off and present length len succeeds with exactly the window
c[off .. off+len) whenever off + len ≤ size. -/
theorem c6_read_window (root : Entry) (path nm : String) (c : List Nat)
    (off len : Nat) (hfile : lookupPath root path = some (.file nm c))
    (hlen : off + len ≤ c.length) :
    memRead root path off (some len) = .success ((c.drop off).take len) := by
  simp only [memRead, hfile]
  rw [if_neg (by simp)]
  simp only [sliceOpt]
  rw [if_pos ⟨Nat.le_add_right off len, hlen⟩]
  simp [Nat.add_sub_cancel_left]

theorem c6_read_window_witness :
    memRead fsAbc "/p" 2 (some 3) = .success [99, 100, 101] := by
  have h := c6_read_window fsAbc "/p" "p" [97, 98, 99, 100, 101, 102] 2 3
    (by decide) (by decide)
  simpa using h

/-! ### Entry and child-list helper lemmas -/

theorem Entry.isFileB_of_isDirB {e : Entry} (h : e.isDirB = true) :
    e.isFileB = false := by
  cases e <;> simp_all [Entry.isDirB, Entry.isFileB]

theorem Entry.name_withChildren (e : Entry) (ch : List Entry) :
    (e.withChildren ch).name = e.name := by
  cases e <;> rfl

theorem Entry.isDirB_withChildren (e : Entry) (ch : List Entry) :
    (e.withChildren ch).isDirB = e.isDirB := by
  cases e <;> rfl

theorem Entry.childrenOf_withChildren {e : Entry} (h : e.isDirB = true)
    (ch : List Entry) : (e.withChildren ch).childrenOf = ch := by
  cases e <;> simp_all [Entry.isDirB, Entry.withChildren, Entry.childrenOf]

theorem Entry.withChildren_self {e : Entry} (h : e.isDirB = true) :
    e.withChildren e.childrenOf = e := by
  cases e <;> simp_all [Entry.isDirB, Entry.withChildren, Entry.childrenOf]

theorem Entry.withChildren_withChildren (e : Entry) (a b : List Entry) :
    (e.withChildren a).withChildren b = e.withChildren b := by
  cases e <;> rfl

theorem findChild_mem {ch : List Entry} {n : String} {e : Entry}
    (h : findChild ch n = some e) : e ∈ ch ∧ e.name = n := by
  unfold findChild at h
  refine ⟨List.mem_of_find?_eq_some h, ?_⟩
  have h2 := List.find?_some h
  simpa using h2

theorem findChild_append_of_none {ch : List Entry} {n : String} {e : Entry}
    (h : findChild ch n = none) (he : e.name = n) :
    findChild (ch ++ [e]) n = some e := by
  induction ch with
  | nil => simp [findChild, List.find?, he]
  | cons c rest ih =>
    unfold findChild at *
    by_cases hc : c.name == n
    · simp [List.find?, hc] at h
    · simp only [List.cons_append, List.find?, hc]
      exact ih (by simpa [List.find?, hc] using h)

theorem setChild_self : ∀ {ch : List Entry} {n : String} {e : Entry},
    findChild ch n = some e → setChild ch n e = ch := by
  intro ch
  induction ch with
  | nil => intro n e h; simp [findChild] at h
  | cons c rest ih =>
    intro n e h
    by_cases hc : c.name = n
    · rw [findChild, List.find?_cons_of_pos _ (by simp [hc])] at h
      have hce : c = e := by simpa using h
      have hb : (c.name == n) = true := by simpa using hc
      simp only [setChild, if_pos hb, ← hce]
    · rw [findChild, List.find?_cons_of_neg _ (by simp [hc])] at h
      have hb : ¬((c.name == n) = true) := by simpa using hc
      simp only [setChild, if_neg hb]
      rw [ih h]

theorem findChild_setChild : ∀ {ch : List Entry} {n : String} {e e2 : Entry},
    findChild ch n = some e → e2.name = n →
    findChild (setChild ch n e2) n = some e2 := by
  intro ch
  induction ch with
  | nil => intro n e e2 h _; simp [findChild] at h
  | cons c rest ih =>
    intro n e e2 h he2
    by_cases hc : c.name = n
    · have hb : (c.name == n) = true := by simpa using hc
      simp only [setChild, if_pos hb]
      rw [findChild, List.find?_cons_of_pos _ (by simp [he2])]
    · rw [findChild, List.find?_cons_of_neg _ (by simp [hc])] at h
      have hb : ¬((c.name == n) = true) := by simpa using hc
      simp only [setChild, if_neg hb]
      rw [findChild, List.find?_cons_of_neg _ (by simp [hc])]
      exact ih h he2

theorem findChild_filter_ne (ch : List Entry) (n : String) :
    findChild (ch.filter (fun c => c.name != n)) n = none := by
  unfold findChild
  rw [List.find?_eq_none]
  intro c hc
  have := List.of_mem_filter hc
  simpa using this

/-! ### Shape of the walk result -/

theorem walkGo_snd_shape (all : Bool) (cb : Cb) :
    ∀ (comps : List String) (cur : Entry),
      (walkGo all cb cur comps).2 = cur ∨
      ∃ ch, (walkGo all cb cur comps).2 = cur.withChildren ch
  | [], cur => by simp [walkGo]
  | name :: rest, cur => by
    simp only [walkGo]
    split
    · split
      · exact Or.inl rfl
      · split
        · exact Or.inr ⟨_, rfl⟩
        · rcases walkGo_snd_shape all cb rest (cur.withChildren _) with h | ⟨ch, h⟩
          · rw [h]; exact Or.inr ⟨_, rfl⟩
          · rw [h, Entry.withChildren_withChildren]; exact Or.inr ⟨_, rfl⟩
      · split
        · exact Or.inr ⟨_, rfl⟩
        · split
          · exact Or.inr ⟨_, rfl⟩
          · split
            · simp only []
              rw [Entry.withChildren_withChildren]
              exact Or.inr ⟨_, rfl⟩
            · exact Or.inr ⟨_, rfl⟩
    · split
      · exact Or.inl rfl
      · split
        · exact walkGo_snd_shape all cb rest cur
        · split
          · simp only []
            exact Or.inr ⟨_, rfl⟩
          · exact Or.inl rfl

theorem walkGo_final (all : Bool) (cb : Cb) (cur : Entry) (name : String) :
    walkGo all cb cur [name] =
      match cb cur.childrenOf name
        (if name = "" then some cur else findChild cur.childrenOf name) with
      | .fail => (false, cur)
      | .toParent ch2 => (true, cur.withChildren ch2)
      | .toChild ch2 _ => (true, cur.withChildren ch2) := by
  simp only [walkGo, List.isEmpty_nil, Bool.or_true, if_pos, if_true]

theorem walkGo_step (cb : Cb) (cur : Entry) (name y : String) (rest : List String) :
    walkGo false cb cur (name :: y :: rest) =
      match (if name = "" then some cur else findChild cur.childrenOf name) with
      | none => (false, cur)
      | some next =>
        if name = "" then walkGo false cb cur (y :: rest)
        else if next.isDirB then
          ((walkGo false cb next (y :: rest)).1,
            cur.withChildren
              (setChild cur.childrenOf name (walkGo false cb next (y :: rest)).2))
        else (false, cur) := by
  have hne : ((false : Bool) || (y :: rest).isEmpty) = false := by simp
  simp only [walkGo, hne]
  rfl

theorem walkGo_step_empty (cb : Cb) (cur : Entry) (y : String) (rest : List String) :
    walkGo false cb cur ("" :: y :: rest) = walkGo false cb cur (y :: rest) := by
  rw [walkGo_step]
  simp

theorem walkGo_step_none (cb : Cb) (cur : Entry) {name : String} (y : String)
    (rest : List String) (hn : name ≠ "")
    (hfc : findChild cur.childrenOf name = none) :
    walkGo false cb cur (name :: y :: rest) = (false, cur) := by
  rw [walkGo_step]
  simp only [if_neg hn, hfc]

theorem walkGo_step_dir (cb : Cb) (cur : Entry) {name : String} (y : String)
    (rest : List String) {next : Entry} (hn : name ≠ "")
    (hfc : findChild cur.childrenOf name = some next) (hnd : next.isDirB = true) :
    walkGo false cb cur (name :: y :: rest) =
      ((walkGo false cb next (y :: rest)).1,
        cur.withChildren
          (setChild cur.childrenOf name (walkGo false cb next (y :: rest)).2)) := by
  rw [walkGo_step]
  simp only [if_neg hn, hfc, hnd, if_true]

theorem walkGo_step_notdir (cb : Cb) (cur : Entry) {name : String} (y : String)
    (rest : List String) {next : Entry} (hn : name ≠ "")
    (hfc : findChild cur.childrenOf name = some next) (hnd : next.isDirB = false) :
    walkGo false cb cur (name :: y :: rest) = (false, cur) := by
  rw [walkGo_step]
  simp only [if_neg hn, hfc, hnd]
  simp

theorem lookupGo_final (cur : Entry) (name : String) :
    lookupGo cur [name] =
      if name = "" then some cur else findChild cur.childrenOf name := rfl

theorem lookupGo_step (cur : Entry) (name y : String) (rest : List String) :
    lookupGo cur (name :: y :: rest) =
      match (if name = "" then some cur else findChild cur.childrenOf name) with
      | none => none
      | some nx => if nx.isDirB then lookupGo nx (y :: rest) else none := rfl

theorem lookupGo_step_empty (cur : Entry) (y : String) (rest : List String) :
    lookupGo cur ("" :: y :: rest) =
      if cur.isDirB then lookupGo cur (y :: rest) else none := by
  rw [lookupGo_step]
  simp

theorem lookupGo_step_none (cur : Entry) {name : String} (y : String)
    (rest : List String) (hn : name ≠ "")
    (hfc : findChild cur.childrenOf name = none) :
    lookupGo cur (name :: y :: rest) = none := by
  rw [lookupGo_step]
  simp only [if_neg hn, hfc]

theorem lookupGo_step_child (cur : Entry) {name : String} (y : String)
    (rest : List String) {next : Entry} (hn : name ≠ "")
    (hfc : findChild cur.childrenOf name = some next) :
    lookupGo cur (name :: y :: rest) =
      if next.isDirB then lookupGo next (y :: rest) else none := by
  rw [lookupGo_step]
  simp only [if_neg hn, hfc]

theorem walkGo_snd_name (all : Bool) (cb : Cb) (comps : List String) (cur : Entry) :
    ((walkGo all cb cur comps).2).name = cur.name := by
  rcases walkGo_snd_shape all cb comps cur with h | ⟨ch, h⟩
  · rw [h]
  · rw [h, Entry.name_withChildren]

theorem walkGo_snd_isDirB (all : Bool) (cb : Cb) (comps : List String) (cur : Entry) :
    ((walkGo all cb cur comps).2).isDirB = cur.isDirB := by
  rcases walkGo_snd_shape all cb comps cur with h | ⟨ch, h⟩
  · rw [h]
  · rw [h, Entry.isDirB_withChildren]

theorem Entry.exists_dir_of_isDirB {e : Entry} (h : e.isDirB = true) :
    ∃ n ch, e = .dir n ch := by
  cases e with
  | file n c => simp [Entry.isDirB] at h
  | dir n ch => exact ⟨n, ch, rfl⟩

/-- After a successful write walk, looking the same components up again
finds a file holding exactly the written contents. -/
theorem walkGo_write_lookup (c : List Nat) :
    ∀ (comps : List String) (cur : Entry), cur.isDirB = true →
      (walkGo false (writeCb c) cur comps).1 = true →
      ∃ nm, lookupGo (walkGo false (writeCb c) cur comps).2 comps =
        some (.file nm c)
  | [], cur, hd, hw => by simp [walkGo] at hw
  | [name], cur, hd, hw => by
    rw [walkGo_final] at hw ⊢
    by_cases hn : name = ""
    · rw [if_pos hn] at hw
      simp only [writeCb, Entry.isFileB_of_isDirB hd] at hw
      simp at hw
    · rw [if_neg hn] at hw ⊢
      cases hfc : findChild cur.childrenOf name with
      | none =>
        simp only [hfc, writeCb] at hw ⊢
        refine ⟨name, ?_⟩
        rw [lookupGo_final, if_neg hn, Entry.childrenOf_withChildren hd,
          @findChild_append_of_none cur.childrenOf name (Entry.file name c) hfc rfl]
      | some e =>
        simp only [hfc, writeCb] at hw ⊢
        cases he : e.isFileB with
        | false => simp [he] at hw
        | true =>
          simp only [he, if_true] at hw ⊢
          refine ⟨name, ?_⟩
          rw [lookupGo_final, if_neg hn, Entry.childrenOf_withChildren hd]
          exact findChild_setChild hfc rfl
  | name :: y :: rest, cur, hd, hw => by
    by_cases hn : name = ""
    · subst hn
      rw [walkGo_step_empty] at hw ⊢
      obtain ⟨nm, hl⟩ := walkGo_write_lookup c (y :: rest) cur hd hw
      refine ⟨nm, ?_⟩
      rw [lookupGo_step_empty, walkGo_snd_isDirB, hd, if_pos rfl]
      exact hl
    · cases hfc : findChild cur.childrenOf name with
      | none => rw [walkGo_step_none _ _ _ _ hn hfc] at hw; simp at hw
      | some next =>
        cases hnd : next.isDirB with
        | false => rw [walkGo_step_notdir _ _ _ _ hn hfc hnd] at hw; simp at hw
        | true =>
          rw [walkGo_step_dir _ _ _ _ hn hfc hnd] at hw ⊢
          simp only [] at hw
          obtain ⟨nm, hl⟩ := walkGo_write_lookup c (y :: rest) next hnd hw
          refine ⟨nm, ?_⟩
          have hnm : ((walkGo false (writeCb c) next (y :: rest)).2).name = name := by
            rw [walkGo_snd_name]
            exact (findChild_mem hfc).2
          rw [lookupGo_step_child _ _ _ hn
              (by rw [Entry.childrenOf_withChildren hd]
                  exact findChild_setChild hfc hnm),
            walkGo_snd_isDirB, hnd, if_pos rfl]
          exact hl

/-- C8: on the in-memory backend, whenever write(c, p) succeeds, a
subsequent read of p with no offset and no length yields exactly c — in
particular a second write fully replaces the first. -/
theorem c8_write_then_read (entries : List Entry) (c : List Nat) (p : String)
    (hw : (memWrite (mkFS entries) c p).1 = true) :
    memRead (memWrite (mkFS entries) c p).2 p 0 none = .success c := by
  unfold memWrite walkPath at hw ⊢
  by_cases ha : isAbsolute p
  · rw [if_pos ha] at hw ⊢
    by_cases hz : normalizePath p = ""
    · rw [if_pos hz] at hw
      simp at hw
    · rw [if_neg hz] at hw ⊢
      obtain ⟨nm, hl⟩ :=
        walkGo_write_lookup c (splitSlash (normalizePath p)) (mkFS entries) rfl hw
      unfold memRead lookupPath
      rw [if_pos ha, if_neg hz, hl]
      simp
  · rw [if_neg ha] at hw
    simp at hw

theorem c8_write_then_read_witness :
    memRead (memWrite (memWrite (mkFS []) [1] "/f").2 [2, 3] "/f").2 "/f" 0 none =
      .success [2, 3] := by
  have h1 : (memWrite (mkFS []) [1] "/f").2 = mkFS [.file "f" [1]] := by decide
  rw [h1]
  exact c8_write_then_read [.file "f" [1]] [2, 3] "/f" (by decide)

/-- A successful createFile walk over a path that already resolves to a
file leaves the tree untouched. -/
theorem walkGo_createFile_file :
    ∀ (comps : List String) (cur : Entry), cur.isDirB = true →
      (∃ nm c, lookupGo cur comps = some (.file nm c)) →
      walkGo false createFileCb cur comps = (true, cur)
  | [], _, _, h => by
    obtain ⟨nm, c, hl⟩ := h
    simp [lookupGo] at hl
  | [name], cur, hd, h => by
    obtain ⟨nm, c, hl⟩ := h
    rw [lookupGo_final] at hl
    by_cases hn : name = ""
    · rw [if_pos hn] at hl
      obtain ⟨n0, ch0, he⟩ := Entry.exists_dir_of_isDirB hd
      rw [he] at hl
      simp at hl
    · rw [if_neg hn] at hl
      rw [walkGo_final, if_neg hn, hl]
      simp only [createFileCb, Entry.isFileB, if_true, contin, if_neg hn]
      rw [Entry.withChildren_self hd]
  | name :: y :: rest, cur, hd, h => by
    obtain ⟨nm, c, hl⟩ := h
    by_cases hn : name = ""
    · subst hn
      simp only [lookupGo_step_empty, hd, if_true] at hl
      rw [walkGo_step_empty]
      exact walkGo_createFile_file (y :: rest) cur hd ⟨nm, c, hl⟩
    · cases hfc : findChild cur.childrenOf name with
      | none =>
        rw [lookupGo_step_none _ _ _ hn hfc] at hl
        exact absurd hl (by simp)
      | some next =>
        rw [lookupGo_step_child _ _ _ hn hfc] at hl
        cases hnd : next.isDirB with
        | false => rw [hnd] at hl; simp at hl
        | true =>
          rw [hnd, if_pos rfl] at hl
          have ih := walkGo_createFile_file (y :: rest) next hnd ⟨nm, c, hl⟩
          rw [walkGo_step_dir _ _ _ _ hn hfc hnd, ih]
          simp only []
          rw [setChild_self hfc, Entry.withChildren_self hd]

/-- A createFile walk over a path that resolves to a directory fails and
leaves the tree untouched. -/
theorem walkGo_createFile_dir :
    ∀ (comps : List String) (cur : Entry), cur.isDirB = true →
      (∃ nm ch2, lookupGo cur comps = some (.dir nm ch2)) →
      walkGo false createFileCb cur comps = (false, cur)
  | [], _, _, h => by
    obtain ⟨nm, ch2, hl⟩ := h
    simp [lookupGo] at hl
  | [name], cur, hd, h => by
    obtain ⟨nm, ch2, hl⟩ := h
    rw [lookupGo_final] at hl
    by_cases hn : name = ""
    · rw [if_pos hn] at hl
      rw [walkGo_final, if_pos hn]
      simp only [createFileCb, Entry.isFileB_of_isDirB hd]
      simp
    · rw [if_neg hn] at hl
      rw [walkGo_final, if_neg hn, hl]
      simp only [createFileCb, Entry.isFileB]
      simp
  | name :: y :: rest, cur, hd, h => by
    obtain ⟨nm, ch2, hl⟩ := h
    by_cases hn : name = ""
    · subst hn
      simp only [lookupGo_step_empty, hd, if_true] at hl
      rw [walkGo_step_empty]
      exact walkGo_createFile_dir (y :: rest) cur hd ⟨nm, ch2, hl⟩
    · cases hfc : findChild cur.childrenOf name with
      | none =>
        rw [lookupGo_step_none _ _ _ hn hfc] at hl
        exact absurd hl (by simp)
      | some next =>
        rw [lookupGo_step_child _ _ _ hn hfc] at hl
        cases hnd : next.isDirB with
        | false => rw [hnd] at hl; simp at hl
        | true =>
          rw [hnd, if_pos rfl] at hl
          have ih := walkGo_createFile_dir (y :: rest) next hnd ⟨nm, ch2, hl⟩
          rw [walkGo_step_dir _ _ _ _ hn hfc hnd, ih]
          simp only []
          rw [setChild_self hfc, Entry.withChildren_self hd]

/-- A recursive removeDirectory walk over a path resolving to a directory,
whose final component is nonempty, succeeds, and afterwards the same
components no longer resolve. -/
theorem walkGo_removeDir :
    ∀ (comps : List String) (cur : Entry), cur.isDirB = true →
      lastName comps ≠ "" →
      (∃ nm ch2, lookupGo cur comps = some (.dir nm ch2)) →
      (walkGo false (removeDirCb true) cur comps).1 = true ∧
      lookupGo (walkGo false (removeDirCb true) cur comps).2 comps = none
  | [], _, _, _, h => by
    obtain ⟨nm, ch2, hl⟩ := h
    simp [lookupGo] at hl
  | [name], cur, hd, hlast, h => by
    obtain ⟨nm, ch2, hl⟩ := h
    have hn : name ≠ "" := by simpa [lastName] using hlast
    rw [lookupGo_final, if_neg hn] at hl
    rw [walkGo_final, if_neg hn, hl]
    simp only [removeDirCb, Entry.isDirB, if_true, Bool.not_true, Bool.false_and,
      Bool.false_eq_true, if_false]
    refine ⟨trivial, ?_⟩
    rw [lookupGo_final, if_neg hn, Entry.childrenOf_withChildren hd,
      findChild_filter_ne]
  | name :: y :: rest, cur, hd, hlast, h => by
    obtain ⟨nm, ch2, hl⟩ := h
    have hlast2 : lastName (y :: rest) ≠ "" := by simpa [lastName] using hlast
    by_cases hn : name = ""
    · subst hn
      simp only [lookupGo_step_empty, hd, if_true] at hl
      rw [walkGo_step_empty]
      obtain ⟨h1, h2⟩ := walkGo_removeDir (y :: rest) cur hd hlast2 ⟨nm, ch2, hl⟩
      refine ⟨h1, ?_⟩
      rw [lookupGo_step_empty, walkGo_snd_isDirB, hd, if_pos rfl]
      exact h2
    · cases hfc : findChild cur.childrenOf name with
      | none =>
        rw [lookupGo_step_none _ _ _ hn hfc] at hl
        exact absurd hl (by simp)
      | some next =>
        rw [lookupGo_step_child _ _ _ hn hfc] at hl
        cases hnd : next.isDirB with
        | false => rw [hnd] at hl; simp at hl
        | true =>
          rw [hnd, if_pos rfl] at hl
          obtain ⟨h1, h2⟩ := walkGo_removeDir (y :: rest) next hnd hlast2 ⟨nm, ch2, hl⟩
          rw [walkGo_step_dir _ _ _ _ hn hfc hnd]
          refine ⟨h1, ?_⟩
          have hnm :
              ((walkGo false (removeDirCb true) next (y :: rest)).2).name = name := by
            rw [walkGo_snd_name]
            exact (findChild_mem hfc).2
          rw [lookupGo_step_child _ _ _ hn
              (by rw [Entry.childrenOf_withChildren hd]
                  exact findChild_setChild hfc hnm),
            walkGo_snd_isDirB, hnd, if_pos rfl]
          exact h2

/-- Unpacks a successful path lookup into its walk components. -/
theorem lookupPath_elim {root : Entry} {p : String} {e : Entry}
    (h : lookupPath root p = some e) :
    isAbsolute p = true ∧ normalizePath p ≠ "" ∧
    lookupGo root (splitSlash (normalizePath p)) = some e := by
  unfold lookupPath at h
  by_cases ha : isAbsolute p
  · rw [if_pos ha] at h
    by_cases hz : normalizePath p = ""
    · rw [if_pos hz] at h
      exact absurd h (by simp)
    · rw [if_neg hz] at h
      exact ⟨ha, hz, h⟩
  · rw [if_neg ha] at h
    exact absurd h (by simp)

/-- C7 (amended): on the in-memory backend createFile is idempotent over
existing regular files and fails over directories, leaving the tree
unchanged either way; on the physical backend createFile returns true
whenever access(p, W_OK) succeeds, including when p is a writable
directory. -/
theorem c7_createFile_amended :
    (∀ (entries : List Entry) (p nm : String) (c : List Nat),
      lookupPath (mkFS entries) p = some (.file nm c) →
      memCreateFile (mkFS entries) p = (true, mkFS entries)) ∧
    (∀ (entries : List Entry) (p nm : String) (ch : List Entry),
      lookupPath (mkFS entries) p = some (.dir nm ch) →
      memCreateFile (mkFS entries) p = (false, mkFS entries)) ∧
    (∀ (h : Host) (p : String), h.writable p = true →
      defaultCreateFile h p = true) := by
  refine ⟨?_, ?_, ?_⟩
  · intro entries p nm c h
    obtain ⟨ha, hz, hl⟩ := lookupPath_elim h
    unfold memCreateFile walkPath
    rw [if_pos ha, if_neg hz]
    exact walkGo_createFile_file _ _ rfl ⟨nm, c, hl⟩
  · intro entries p nm ch h
    obtain ⟨ha, hz, hl⟩ := lookupPath_elim h
    unfold memCreateFile walkPath
    rw [if_pos ha, if_neg hz]
    exact walkGo_createFile_dir _ _ rfl ⟨nm, ch, hl⟩
  · intro h p hw
    unfold defaultCreateFile
    rw [if_pos hw]

theorem c7_createFile_amended_witness :
    memCreateFile (mkFS [.file "f" [5]]) "/f" = (true, mkFS [.file "f" [5]]) ∧
    memCreateFile (mkFS [.dir "d" []]) "/d" = (false, mkFS [.dir "d" []]) ∧
    defaultCreateFile hostDirW "/d" = true :=
  ⟨c7_createFile_amended.1 [.file "f" [5]] "/f" "f" [5] (by decide),
   c7_createFile_amended.2.1 [.dir "d" []] "/d" "d" [] (by decide),
   c7_createFile_amended.2.2 hostDirW "/d" (by decide)⟩

/-! ### Structure of normalized absolute paths -/

theorem splitCharAux_no_sep (sep : Char) :
    ∀ (cs acc : List Char), sep ∉ cs →
      splitCharAux sep cs acc = [acc.reverse ++ cs] := by
  intro cs
  induction cs with
  | nil => intro acc _; simp [splitCharAux]
  | cons c rest ih =>
    intro acc hns
    have hc : ¬(c = sep) := fun hce => hns (hce ▸ List.mem_cons_self c rest)
    rw [splitCharAux, if_neg hc, ih _ (fun hm => hns (List.mem_cons_of_mem c hm))]
    simp

theorem splitCharAux_append (sep : Char) :
    ∀ (cs more acc : List Char), sep ∉ cs →
      splitCharAux sep (cs ++ sep :: more) acc =
        (acc.reverse ++ cs) :: splitCharAux sep more [] := by
  intro cs
  induction cs with
  | nil =>
    intro more acc _
    simp [splitCharAux]
  | cons c rest ih =>
    intro more acc hns
    have hc : ¬(c = sep) := fun hce => hns (hce ▸ List.mem_cons_self c rest)
    rw [List.cons_append, splitCharAux, if_neg hc,
      ih _ _ (fun hm => hns (List.mem_cons_of_mem c hm))]
    simp

theorem splitSlash_join_cons :
    ∀ (L : List String) (x : String), '/' ∉ x.toList →
      (∀ y ∈ L, '/' ∉ y.toList) →
      splitSlash (joinSlash (x :: L)) = x :: L := by
  intro L
  induction L with
  | nil =>
    intro x hx _
    show splitSlash (joinSlash [x]) = [x]
    unfold joinSlash splitSlash
    rw [splitCharAux_no_sep '/' _ _ hx]
    simp
  | cons y L ih =>
    intro x hx hL
    show splitSlash (x ++ "/" ++ joinSlash (y :: L)) = x :: y :: L
    unfold splitSlash
    have hdata : (x ++ "/" ++ joinSlash (y :: L)).toList =
        x.toList ++ '/' :: (joinSlash (y :: L)).toList := by
      show (x ++ "/" ++ joinSlash (y :: L)).data = _
      rw [String.data_append, String.data_append]
      simp
    rw [hdata, splitCharAux_append '/' _ _ _ hx]
    simp only [List.reverse_nil, List.nil_append, List.map]
    have hy : '/' ∉ y.toList := hL y (List.mem_cons_self y L)
    have hL2 : ∀ z ∈ L, '/' ∉ z.toList := fun z hz => hL z (List.mem_cons_of_mem y hz)
    have := ih y hy hL2
    unfold splitSlash at this
    rw [this]
    rfl

theorem splitSlash_root_join (L : List String) (hns : ∀ y ∈ L, '/' ∉ y.toList)
    (hne : L ≠ []) : splitSlash ("/" ++ joinSlash L) = "" :: L := by
  cases L with
  | nil => exact absurd rfl hne
  | cons x L =>
    unfold splitSlash
    have hdata : ("/" ++ joinSlash (x :: L)).toList =
        '/' :: (joinSlash (x :: L)).toList := by
      show ("/" ++ joinSlash (x :: L)).data = _
      rw [String.data_append]
      rfl
    rw [hdata]
    rw [show splitCharAux '/' ('/' :: (joinSlash (x :: L)).toList) [] =
        [] :: splitCharAux '/' (joinSlash (x :: L)).toList [] from by
      rw [splitCharAux, if_pos rfl]; rfl]
    simp only [List.map]
    have := splitSlash_join_cons L x (hns x (List.mem_cons_self x L))
      (fun y hy => hns y (List.mem_cons_of_mem x hy))
    unfold splitSlash at this
    rw [this]

theorem splitCharAux_members (sep : Char) :
    ∀ (cs acc : List Char), sep ∉ acc →
      ∀ l ∈ splitCharAux sep cs acc, sep ∉ l := by
  intro cs
  induction cs with
  | nil =>
    intro acc hacc l hl
    simp only [splitCharAux, List.mem_singleton] at hl
    subst hl
    simpa using hacc
  | cons c rest ih =>
    intro acc hacc l hl
    by_cases hc : c = sep
    · rw [splitCharAux, if_pos hc] at hl
      rcases List.mem_cons.mp hl with h1 | h2
      · subst h1; simpa using hacc
      · exact ih [] (by simp) l h2
    · rw [splitCharAux, if_neg hc] at hl
      refine ih (c :: acc) ?_ l hl
      intro hm
      rcases List.mem_cons.mp hm with h1 | h2
      · exact hc h1.symm
      · exact hacc h2

theorem splitSlash_members (s : String) :
    ∀ y ∈ splitSlash s, '/' ∉ y.toList := by
  intro y hy
  unfold splitSlash at hy
  obtain ⟨cs, hcs, hmk⟩ := List.mem_map.mp hy
  have := splitCharAux_members '/' s.toList [] (by simp) cs hcs
  rw [← hmk]
  simpa using this

theorem foldl_normStep_inv :
    ∀ (comps acc : List String), (∀ c ∈ comps, goodComp c) →
      (∀ a ∈ acc, goodComp a) →
      ∀ x ∈ List.foldl (normStep true) acc comps, goodComp x := by
  intro comps
  induction comps with
  | nil => intro acc _ hacc x hx; exact hacc x hx
  | cons c rest ih =>
    intro acc hcomps hacc x hx
    rw [List.foldl_cons] at hx
    refine ih (normStep true acc c) (fun d hd => hcomps d (List.mem_cons_of_mem c hd))
      ?_ x hx
    intro a ha
    unfold normStep at ha
    by_cases hdd : c = ".."
    · rw [if_pos hdd] at ha
      cases acc with
      | nil =>
        have ha2 : a ∈ ([] : List String) := ha
        simp at ha2
      | cons z zs =>
        have ha2 : a ∈ (if z = ".." then c :: z :: zs else zs) := ha
        by_cases hz : z = ".."
        · rw [if_pos hz] at ha2
          rcases List.mem_cons.mp ha2 with h1 | h2
          · rw [h1, hdd]; exact ⟨by decide, by decide⟩
          · exact hacc a h2
        · rw [if_neg hz] at ha2
          exact hacc a (List.mem_cons_of_mem z ha2)
    · rw [if_neg hdd] at ha
      rcases List.mem_cons.mp ha with h1 | h2
      · rw [h1]; exact hcomps c (List.mem_cons_self c rest)
      · exact hacc a h2

theorem normalizePath_abs_structure (p : String) (ha : isAbsolute p = true) :
    ∃ L, normalizePath p = "/" ++ joinSlash L ∧ ∀ y ∈ L, goodComp y := by
  have hp : p ≠ "" := by
    intro he
    rw [he] at ha
    exact absurd ha (by decide)
  unfold normalizePath
  rw [if_neg hp]
  simp only [ha, if_true]
  refine ⟨_, rfl, ?_⟩
  intro y hy
  rw [List.mem_reverse] at hy
  refine foldl_normStep_inv _ [] ?_ (by simp) y hy
  intro c hc
  have hmem := List.mem_of_mem_filter hc
  have hflt := List.of_mem_filter hc
  simp only [Bool.and_eq_true, bne_iff_ne] at hflt
  exact ⟨hflt.1, splitSlash_members p c hmem⟩

theorem lastName_cons (a : String) (l : List String) (h : l ≠ []) :
    lastName (a :: l) = lastName l := by
  cases l with
  | nil => exact absurd rfl h
  | cons y ys => rfl

theorem lastName_mem : ∀ (l : List String), l ≠ [] → lastName l ∈ l := by
  intro l
  induction l with
  | nil => intro h; exact absurd rfl h
  | cons a l ih =>
    intro _
    cases l with
    | nil => simp [lastName]
    | cons y ys =>
      rw [lastName_cons a (y :: ys) (by simp)]
      exact List.mem_cons_of_mem a (ih (by simp))

theorem lastName_normalized_ne_empty (p : String) (ha : isAbsolute p = true)
    (hroot : normalizePath p ≠ "/") :
    lastName (splitSlash (normalizePath p)) ≠ "" := by
  obtain ⟨L, hL, hgood⟩ := normalizePath_abs_structure p ha
  cases hLe : L with
  | nil =>
    rw [hLe] at hL
    simp only [joinSlash] at hL
    rw [show ("/" ++ "" : String) = "/" from by rfl] at hL
    exact absurd hL hroot
  | cons x xs =>
    rw [hL, splitSlash_root_join L (fun y hy => (hgood y hy).2) (by rw [hLe]; simp)]
    rw [lastName_cons "" L (by rw [hLe]; simp)]
    exact (hgood _ (lastName_mem L (by rw [hLe]; simp))).1

/-- C2 (amended): on the in-memory backend, removeDirectory(p, recursive)
over a path that resolves to a directory and does not normalize to the
root returns true and removes the directory with its subtree: afterwards
exists(p) is false. -/
theorem c2_removeDirectory_amended (entries : List Entry) (p nm : String)
    (ch : List Entry) (hdir : lookupPath (mkFS entries) p = some (.dir nm ch))
    (hroot : normalizePath p ≠ "/") :
    (memRemoveDirectory (mkFS entries) p true).1 = true ∧
    memExists (memRemoveDirectory (mkFS entries) p true).2 p = false := by
  obtain ⟨ha, hz, hl⟩ := lookupPath_elim hdir
  have hlast := lastName_normalized_ne_empty p ha hroot
  unfold memRemoveDirectory walkPath
  rw [if_pos ha, if_neg hz]
  obtain ⟨h1, h2⟩ := walkGo_removeDir (splitSlash (normalizePath p)) (mkFS entries)
    rfl hlast ⟨nm, ch, hl⟩
  refine ⟨h1, ?_⟩
  unfold memExists lookupPath
  rw [if_pos ha, if_neg hz, h2]
  rfl

theorem c2_removeDirectory_amended_witness :
    (memRemoveDirectory fsR "/r" true).1 = true ∧
    memExists (memRemoveDirectory fsR "/r" true).2 "/r" = false :=
  c2_removeDirectory_amended [.dir "r" [.file "a" [], .dir "b" [.file "c" []]]]
    "/r" "r" [.file "a" [], .dir "b" [.file "c" []]] (by decide) (by decide)

/-! ### Preservation of the duplicate-free invariant -/

theorem all_filter_of_all {l : List Entry} {p q : Entry → Bool}
    (h : l.all p = true) : (l.filter q).all p = true := by
  rw [List.all_eq_true] at h ⊢
  intro x hx
  exact h x (List.mem_of_mem_filter hx)

theorem nodupNames_filter {ch : List Entry} (q : Entry → Bool)
    (h : nodupNames ch = true) : nodupNames (ch.filter q) = true := by
  induction ch with
  | nil => simp [nodupNames]
  | cons c rest ih =>
    simp only [nodupNames, Bool.and_eq_true] at h
    rw [List.filter_cons]
    by_cases hq : q c = true
    · rw [if_pos hq]
      simp only [nodupNames, Bool.and_eq_true]
      exact ⟨all_filter_of_all h.1, ih h.2⟩
    · rw [if_neg hq]
      exact ih h.2

theorem childrenND_filter {ch : List Entry} (q : Entry → Bool)
    (h : childrenND ch = true) : childrenND (ch.filter q) = true := by
  induction ch with
  | nil => simp [childrenND]
  | cons c rest ih =>
    simp only [childrenND, Bool.and_eq_true] at h
    rw [List.filter_cons]
    by_cases hq : q c = true
    · rw [if_pos hq]
      simp only [childrenND, Bool.and_eq_true]
      exact ⟨h.1, ih h.2⟩
    · rw [if_neg hq]
      exact ih h.2

theorem childrenND_mem : ∀ {ch : List Entry} {e : Entry},
    childrenND ch = true → e ∈ ch → entryND e = true := by
  intro ch
  induction ch with
  | nil => intro e _ he; simp at he
  | cons c rest ih =>
    intro e h he
    simp only [childrenND, Bool.and_eq_true] at h
    rcases List.mem_cons.mp he with h1 | h2
    · rw [h1]; exact h.1
    · exact ih h.2 h2

theorem findChild_none_all {ch : List Entry} {n : String}
    (h : findChild ch n = none) : ch.all (fun c => c.name != n) = true := by
  unfold findChild at h
  rw [List.find?_eq_none] at h
  rw [List.all_eq_true]
  intro c hc
  simpa using h c hc

theorem nodupNames_append_singleton {ch : List Entry} {e : Entry}
    (hall : ch.all (fun c => c.name != e.name) = true)
    (h : nodupNames ch = true) : nodupNames (ch ++ [e]) = true := by
  induction ch with
  | nil => simp [nodupNames]
  | cons c rest ih =>
    simp only [List.all_cons, Bool.and_eq_true] at hall
    simp only [nodupNames, Bool.and_eq_true] at h
    simp only [List.cons_append, nodupNames, Bool.and_eq_true]
    refine ⟨?_, ih hall.2 h.2⟩
    show ((rest ++ [e]).all fun d => d.name != c.name) = true
    rw [List.all_append, Bool.and_eq_true]
    refine ⟨h.1, ?_⟩
    simp only [List.all_cons, List.all_nil, Bool.and_true]
    have := hall.1
    simp only [bne_iff_ne] at this ⊢
    exact fun hg => this hg.symm

theorem childrenND_append_singleton {ch : List Entry} {e : Entry}
    (h : childrenND ch = true) (he : entryND e = true) :
    childrenND (ch ++ [e]) = true := by
  induction ch with
  | nil => simp [childrenND, he]
  | cons c rest ih =>
    simp only [childrenND, Bool.and_eq_true] at h
    simp only [List.cons_append, childrenND, Bool.and_eq_true]
    exact ⟨h.1, ih h.2⟩

theorem setChild_all_name {l : List Entry} {a n : String} {e : Entry}
    (hall : l.all (fun d => d.name != a) = true) (he : e.name = n) :
    (setChild l n e).all (fun d => d.name != a) = true := by
  induction l with
  | nil => simp [setChild]
  | cons c rest ih =>
    simp only [List.all_cons, Bool.and_eq_true] at hall
    by_cases hc : (c.name == n) = true
    · simp only [setChild, if_pos hc]
      simp only [List.all_cons, Bool.and_eq_true]
      refine ⟨?_, hall.2⟩
      have hcn : c.name = n := by simpa using hc
      rw [show e.name = c.name from by rw [he, hcn]]
      exact hall.1
    · simp only [setChild, if_neg hc]
      simp only [List.all_cons, Bool.and_eq_true]
      exact ⟨hall.1, ih hall.2⟩

theorem nodupNames_setChild {ch : List Entry} {n : String} {e : Entry}
    (h : nodupNames ch = true) (he : e.name = n) :
    nodupNames (setChild ch n e) = true := by
  induction ch with
  | nil => simp [setChild, nodupNames]
  | cons c rest ih =>
    simp only [nodupNames, Bool.and_eq_true] at h
    by_cases hc : (c.name == n) = true
    · simp only [setChild, if_pos hc]
      simp only [nodupNames, Bool.and_eq_true]
      refine ⟨?_, h.2⟩
      have hcn : c.name = n := by simpa using hc
      rw [show e.name = c.name from by rw [he, hcn]]
      exact h.1
    · simp only [setChild, if_neg hc]
      simp only [nodupNames, Bool.and_eq_true]
      exact ⟨setChild_all_name h.1 he, ih h.2⟩

theorem childrenND_setChild {ch : List Entry} {n : String} {e : Entry}
    (h : childrenND ch = true) (he : entryND e = true) :
    childrenND (setChild ch n e) = true := by
  induction ch with
  | nil => simp [setChild, childrenND]
  | cons c rest ih =>
    simp only [childrenND, Bool.and_eq_true] at h
    by_cases hc : (c.name == n) = true
    · simp only [setChild, if_pos hc]
      simp only [childrenND, Bool.and_eq_true]
      exact ⟨he, h.2⟩
    · simp only [setChild, if_neg hc]
      simp only [childrenND, Bool.and_eq_true]
      exact ⟨h.1, ih h.2⟩

theorem entryND_parts {cur : Entry} (hd : cur.isDirB = true)
    (h : entryND cur = true) :
    nodupNames cur.childrenOf = true ∧ childrenND cur.childrenOf = true := by
  cases cur with
  | file n c => simp [Entry.isDirB] at hd
  | dir n ch =>
    simp only [entryND, Bool.and_eq_true] at h
    exact h

theorem entryND_withChildren {cur : Entry} (hd : cur.isDirB = true)
    {ch : List Entry} (h1 : nodupNames ch = true) (h2 : childrenND ch = true) :
    entryND (cur.withChildren ch) = true := by
  cases cur with
  | file n c => simp [Entry.isDirB] at hd
  | dir n ch0 =>
    simp only [Entry.withChildren, entryND, Bool.and_eq_true]
    exact ⟨h1, h2⟩

theorem walkGo_preservesND (all : Bool) (cb : Cb) (hcb : CbPreservesND cb) :
    ∀ (comps : List String) (cur : Entry), cur.isDirB = true →
      entryND cur = true → entryND (walkGo all cb cur comps).2 = true
  | [], cur, _, hnd => by simpa [walkGo] using hnd
  | name :: rest, cur, hd, hnd => by
    obtain ⟨hno, hch⟩ := entryND_parts hd hnd
    have hc := hcb cur.childrenOf name
      (if name = "" then some cur else findChild cur.childrenOf name)
      (fun hn => by rw [if_neg hn]) (fun hn => by rw [if_pos hn]; rfl) hno hch
    simp only [walkGo]
    split
    · cases hcbout : cb cur.childrenOf name
          (if name = "" then some cur else findChild cur.childrenOf name) with
      | fail => simpa using hnd
      | toParent ch2 =>
        rw [hcbout] at hc
        have hd2 : (cur.withChildren ch2).isDirB = true := by
          rw [Entry.isDirB_withChildren, hd]
        have hnd2 : entryND (cur.withChildren ch2) = true :=
          entryND_withChildren hd hc.1 hc.2
        show entryND
          (if rest.isEmpty then (true, cur.withChildren ch2)
           else walkGo all cb (cur.withChildren ch2) rest).2 = true
        split
        · simpa using hnd2
        · exact walkGo_preservesND all cb hcb rest (cur.withChildren ch2) hd2 hnd2
      | toChild ch2 n2 =>
        rw [hcbout] at hc
        have hnd2 : entryND (cur.withChildren ch2) = true :=
          entryND_withChildren hd hc.1 hc.2
        show entryND
          (if rest.isEmpty then (true, cur.withChildren ch2)
           else
             match findChild ch2 n2 with
             | none => (false, cur.withChildren ch2)
             | some next =>
               if next.isDirB then
                 ((walkGo all cb next rest).1,
                   (cur.withChildren ch2).withChildren
                     (setChild ch2 n2 (walkGo all cb next rest).2))
               else (false, cur.withChildren ch2)).2 = true
        split
        · simpa using hnd2
        · cases hfc2 : findChild ch2 n2 with
          | none => simpa using hnd2
          | some next =>
            have hmem := findChild_mem hfc2
            show entryND
              (if next.isDirB then
                 ((walkGo all cb next rest).1,
                   (cur.withChildren ch2).withChildren
                     (setChild ch2 n2 (walkGo all cb next rest).2))
               else (false, cur.withChildren ch2)).2 = true
            cases hnext : next.isDirB with
            | false => rw [if_neg (by simp)]; simpa using hnd2
            | true =>
              rw [if_pos rfl]
              have hnen : entryND next = true := childrenND_mem hc.2 hmem.1
              have hrec := walkGo_preservesND all cb hcb rest next hnext hnen
              have hrname : ((walkGo all cb next rest).2).name = n2 := by
                rw [walkGo_snd_name]; exact hmem.2
              show entryND
                ((cur.withChildren ch2).withChildren
                  (setChild ch2 n2 (walkGo all cb next rest).2)) = true
              rw [Entry.withChildren_withChildren]
              exact entryND_withChildren hd
                (nodupNames_setChild hc.1 hrname)
                (childrenND_setChild hc.2 hrec)
    · by_cases hn : name = ""
      · simp only [if_pos hn]
        exact walkGo_preservesND all cb hcb rest cur hd hnd
      · simp only [if_neg hn]
        cases hfc : findChild cur.childrenOf name with
        | none => simpa using hnd
        | some next =>
          have hmem := findChild_mem hfc
          show entryND
            (if next.isDirB then
               ((walkGo all cb next rest).1,
                 cur.withChildren
                   (setChild cur.childrenOf name (walkGo all cb next rest).2))
             else (false, cur)).2 = true
          cases hnext : next.isDirB with
          | false => rw [if_neg (by simp)]; simpa using hnd
          | true =>
            rw [if_pos rfl]
            have hnen : entryND next = true := childrenND_mem hch hmem.1
            have hrec := walkGo_preservesND all cb hcb rest next hnext hnen
            have hrname : ((walkGo all cb next rest).2).name = name := by
              rw [walkGo_snd_name]; exact hmem.2
            show entryND
              (cur.withChildren
                (setChild cur.childrenOf name (walkGo all cb next rest).2)) = true
            exact entryND_withChildren hd
              (nodupNames_setChild hno hrname)
              (childrenND_setChild hch hrec)

theorem createFileCb_preservesND : CbPreservesND createFileCb := by
  intro ch name found h1 h2 hno hch
  cases found with
  | some e =>
    cases he : e.isFileB with
    | false =>
      have heq : createFileCb ch name (some e) = .fail := by
        simp [createFileCb, he]
      rw [heq]
      trivial
    | true =>
      by_cases hn : name = ""
      · have heq : createFileCb ch name (some e) = .toParent ch := by
          simp [createFileCb, he, contin, hn]
        rw [heq]
        exact ⟨hno, hch⟩
      · have heq : createFileCb ch name (some e) = .toChild ch name := by
          simp [createFileCb, he, contin, hn]
        rw [heq]
        exact ⟨hno, hch⟩
  | none =>
    have hn : name ≠ "" := by
      intro he
      have := h2 he
      simp at this
    have hfc : findChild ch name = none := (h1 hn).symm
    have heq : createFileCb ch name none =
        .toChild (ch ++ [.file name []]) name := by
      simp [createFileCb]
    rw [heq]
    refine ⟨nodupNames_append_singleton ?_ hno, childrenND_append_singleton hch rfl⟩
    simpa [Entry.name] using findChild_none_all hfc

theorem writeCb_preservesND (c : List Nat) : CbPreservesND (writeCb c) := by
  intro ch name found h1 h2 hno hch
  cases found with
  | some e =>
    cases he : e.isFileB with
    | false =>
      have heq : writeCb c ch name (some e) = .fail := by simp [writeCb, he]
      rw [heq]
      trivial
    | true =>
      have heq : writeCb c ch name (some e) =
          .toChild (setChild ch name (.file name c)) name := by
        simp [writeCb, he]
      rw [heq]
      exact ⟨nodupNames_setChild hno rfl, childrenND_setChild hch rfl⟩
  | none =>
    have hn : name ≠ "" := by
      intro he
      have := h2 he
      simp at this
    have hfc : findChild ch name = none := (h1 hn).symm
    have heq : writeCb c ch name none =
        .toChild (ch ++ [.file name c]) name := by
      simp [writeCb]
    rw [heq]
    refine ⟨nodupNames_append_singleton ?_ hno, childrenND_append_singleton hch rfl⟩
    simpa [Entry.name] using findChild_none_all hfc

theorem createDirCb_preservesND : CbPreservesND createDirCb := by
  intro ch name found h1 h2 hno hch
  cases found with
  | some e =>
    cases he : e.isDirB with
    | false =>
      have heq : createDirCb ch name (some e) = .fail := by
        simp [createDirCb, he]
      rw [heq]
      trivial
    | true =>
      by_cases hn : name = ""
      · have heq : createDirCb ch name (some e) = .toParent ch := by
          simp [createDirCb, he, contin, hn]
        rw [heq]
        exact ⟨hno, hch⟩
      · have heq : createDirCb ch name (some e) = .toChild ch name := by
          simp [createDirCb, he, contin, hn]
        rw [heq]
        exact ⟨hno, hch⟩
  | none =>
    have hn : name ≠ "" := by
      intro he
      have := h2 he
      simp at this
    have hfc : findChild ch name = none := (h1 hn).symm
    have heq : createDirCb ch name none =
        .toChild (ch ++ [.dir name []]) name := by
      simp [createDirCb]
    rw [heq]
    refine ⟨nodupNames_append_singleton ?_ hno, childrenND_append_singleton hch rfl⟩
    simpa [Entry.name] using findChild_none_all hfc

theorem removeFileCb_preservesND : CbPreservesND removeFileCb := by
  intro ch name found h1 h2 hno hch
  cases found with
  | some e =>
    cases he : e.isFileB with
    | false =>
      have heq : removeFileCb ch name (some e) = .fail := by
        simp [removeFileCb, he]
      rw [heq]
      trivial
    | true =>
      have heq : removeFileCb ch name (some e) =
          .toParent (ch.filter (fun c => c.name != name)) := by
        simp [removeFileCb, he]
      rw [heq]
      exact ⟨nodupNames_filter _ hno, childrenND_filter _ hch⟩
  | none =>
    have heq : removeFileCb ch name none = .fail := by simp [removeFileCb]
    rw [heq]
    trivial

theorem removeDirCb_preservesND (r : Bool) : CbPreservesND (removeDirCb r) := by
  intro ch name found h1 h2 hno hch
  cases found with
  | some e =>
    cases he : e.isDirB with
    | false =>
      have heq : removeDirCb r ch name (some e) = .fail := by
        simp [removeDirCb, he]
      rw [heq]
      trivial
    | true =>
      by_cases hcond : (!r && !e.childrenOf.isEmpty) = true
      · have heq : removeDirCb r ch name (some e) = .fail := by
          simp [removeDirCb, he, hcond]
        rw [heq]
        trivial
      · have heq : removeDirCb r ch name (some e) =
            .toParent (ch.filter (fun c => c.name != name)) := by
          simp [removeDirCb, he, hcond]
        rw [heq]
        exact ⟨nodupNames_filter _ hno, childrenND_filter _ hch⟩
  | none =>
    have heq : removeDirCb r ch name none = .fail := by simp [removeDirCb]
    rw [heq]
    trivial

/-- C9 (amended): every mutating in-memory operation — createFile, write,
createDirectory and removeDirectory with either flag, removeFile —
preserves the duplicate-free-siblings invariant; it is not established by
the constructor, which stores initial_entries verbatim. -/
theorem c9_mutators_preserve_nodup (entries : List Entry) (p : String)
    (c : List Nat) (r : Bool) (hnd : entryND (mkFS entries) = true) :
    entryND (memCreateFile (mkFS entries) p).2 = true ∧
    entryND (memWrite (mkFS entries) c p).2 = true ∧
    entryND (memCreateDirectory (mkFS entries) p r).2 = true ∧
    entryND (memRemoveFile (mkFS entries) p).2 = true ∧
    entryND (memRemoveDirectory (mkFS entries) p r).2 = true := by
  have hwp : ∀ (all : Bool) (cb : Cb), CbPreservesND cb →
      entryND (walkPath all cb (mkFS entries) p).2 = true := by
    intro all cb hcb
    unfold walkPath
    by_cases ha : isAbsolute p
    · rw [if_pos ha]
      by_cases hz : normalizePath p = ""
      · rw [if_pos hz]
        simpa using hnd
      · rw [if_neg hz]
        exact walkGo_preservesND all cb hcb _ (mkFS entries) rfl hnd
    · rw [if_neg ha]
      simpa using hnd
  exact ⟨hwp false createFileCb createFileCb_preservesND,
    hwp false (writeCb c) (writeCb_preservesND c),
    hwp r createDirCb createDirCb_preservesND,
    hwp false removeFileCb removeFileCb_preservesND,
    hwp false (removeDirCb r) (removeDirCb_preservesND r)⟩

theorem c9_mutators_preserve_nodup_witness :
    entryND (memCreateFile (mkFS [.dir "d" []]) "/f").2 = true ∧
    entryND (memWrite (mkFS [.dir "d" []]) [7] "/f").2 = true ∧
    entryND (memCreateDirectory (mkFS [.dir "d" []]) "/f" true).2 = true ∧
    entryND (memRemoveFile (mkFS [.dir "d" []]) "/f").2 = true ∧
    entryND (memRemoveDirectory (mkFS [.dir "d" []]) "/f" true).2 = true :=
  c9_mutators_preserve_nodup [.dir "d" []] "/f" [7] true (by decide)

/-! ### readDirectory: well-formed trees -/

theorem entryWF_parts {n : String} {ch : List Entry}
    (h : entryWF (.dir n ch) = true) :
    nodupNames ch = true ∧ childrenWF ch = true := by
  simpa [entryWF, Bool.and_eq_true] using h

theorem childrenWF_mem : ∀ {ch : List Entry} {e : Entry},
    childrenWF ch = true → e ∈ ch →
    wfName e.name = true ∧ entryWF e = true := by
  intro ch
  induction ch with
  | nil => intro e _ he; simp at he
  | cons c rest ih =>
    intro e h he
    have h2 : wfName c.name = true ∧ entryWF c = true ∧ childrenWF rest = true := by
      simpa [childrenWF, Bool.and_eq_true, and_assoc] using h
    rcases List.mem_cons.mp he with h1 | hm
    · rw [h1]; exact ⟨h2.1, h2.2.1⟩
    · exact ih h2.2.2 hm

theorem entryWF_child {cur e : Entry} (hwf : entryWF cur = true)
    (he : e ∈ cur.childrenOf) : wfName e.name = true ∧ entryWF e = true := by
  cases cur with
  | file n c => simp [Entry.childrenOf] at he
  | dir n ch => exact childrenWF_mem (entryWF_parts hwf).2 he

theorem lookupGo_WF : ∀ (comps : List String) (cur : Entry),
    entryWF cur = true → ∀ {d : Entry}, lookupGo cur comps = some d →
    entryWF d = true
  | [], cur, hwf, d, hl => by simp [lookupGo] at hl
  | [name], cur, hwf, d, hl => by
    rw [lookupGo_final] at hl
    by_cases hn : name = ""
    · rw [if_pos hn] at hl
      injection hl with hl
      rw [← hl]
      exact hwf
    · rw [if_neg hn] at hl
      exact (entryWF_child hwf (findChild_mem hl).1).2
  | name :: y :: rest, cur, hwf, d, hl => by
    by_cases hn : name = ""
    · subst hn
      rw [lookupGo_step_empty] at hl
      cases hdd : cur.isDirB with
      | false => rw [hdd] at hl; simp at hl
      | true =>
        rw [hdd, if_pos rfl] at hl
        exact lookupGo_WF (y :: rest) cur hwf hl
    · cases hfc : findChild cur.childrenOf name with
      | none => rw [lookupGo_step_none _ _ _ hn hfc] at hl; simp at hl
      | some next =>
        rw [lookupGo_step_child _ _ _ hn hfc] at hl
        cases hdd : next.isDirB with
        | false => rw [hdd] at hl; simp at hl
        | true =>
          rw [hdd, if_pos rfl] at hl
          exact lookupGo_WF (y :: rest) next
            (entryWF_child hwf (findChild_mem hfc).1).2 hl

/-! ### readDirectory: string-level and component-level reports agree -/

theorem joinSlash_append_singleton : ∀ (l : List String) (n : String), l ≠ [] →
    joinSlash (l ++ [n]) = joinSlash l ++ "/" ++ n := by
  intro l
  induction l with
  | nil => intro n h; exact absurd rfl h
  | cons x rest ih =>
    intro n _
    cases rest with
    | nil => rfl
    | cons z zs =>
      show x ++ "/" ++ joinSlash ((z :: zs) ++ [n]) =
        (x ++ "/" ++ joinSlash (z :: zs)) ++ "/" ++ n
      rw [ih n (by simp)]
      simp [String.append_assoc]

theorem joinSub_optJoin (sub : List String) (n : String) :
    joinSub (optJoin sub) n = joinSlash (sub ++ [n]) := by
  cases sub with
  | nil => rfl
  | cons x rest =>
    show joinSlash (x :: rest) ++ "/" ++ n = joinSlash ((x :: rest) ++ [n])
    rw [joinSlash_append_singleton (x :: rest) n (by simp)]

theorem optJoin_append (sub : List String) (n : String) :
    optJoin (sub ++ [n]) = some (joinSlash (sub ++ [n])) := by
  cases sub with
  | nil => rfl
  | cons x rest => rfl

mutual

theorem reportEntry_comps : ∀ (sub : List String) (e : Entry),
    reportEntry true (optJoin sub) e = (reportCompsE sub e).map joinSlash
  | sub, .file n c => by simp [reportEntry, reportCompsE]
  | sub, .dir n ch => by
    rw [show reportEntry true (optJoin sub) (.dir n ch) =
        ch.map (fun c => joinSub (optJoin sub) c.name) ++
          reportChildren true (optJoin sub) ch from rfl]
    rw [show reportCompsE sub (.dir n ch) =
        (ch.map fun c => sub ++ [c.name]) ++ reportCompsC sub ch from rfl]
    rw [List.map_append, List.map_map, reportChildren_comps sub ch]
    congr 1
    apply List.map_congr_left
    intro c _
    show joinSub (optJoin sub) c.name = joinSlash (sub ++ [c.name])
    exact joinSub_optJoin sub c.name

theorem reportChildren_comps : ∀ (sub : List String) (ch : List Entry),
    reportChildren true (optJoin sub) ch = (reportCompsC sub ch).map joinSlash
  | _, [] => rfl
  | sub, c :: rest => by
    rw [show reportChildren true (optJoin sub) (c :: rest) =
        (if c.isDirB then
          reportEntry true (some (joinSub (optJoin sub) c.name)) c else []) ++
          reportChildren true (optJoin sub) rest from rfl]
    rw [show reportCompsC sub (c :: rest) =
        (if c.isDirB then reportCompsE (sub ++ [c.name]) c else []) ++
          reportCompsC sub rest from rfl]
    rw [List.map_append, reportChildren_comps sub rest]
    congr 1
    cases hdd : c.isDirB with
    | false => simp
    | true =>
      rw [if_pos rfl, if_pos rfl]
      rw [show some (joinSub (optJoin sub) c.name) = optJoin (sub ++ [c.name]) from by
        rw [joinSub_optJoin, optJoin_append]]
      exact reportEntry_comps (sub ++ [c.name]) c

end

mutual

theorem reportCompsE_shift : ∀ (sub : List String) (e : Entry),
    reportCompsE sub e = (reportCompsE [] e).map (fun l => sub ++ l)
  | _, .file n c => by simp [reportCompsE]
  | sub, .dir n ch => by
    rw [show reportCompsE sub (.dir n ch) =
        (ch.map fun c => sub ++ [c.name]) ++ reportCompsC sub ch from rfl]
    rw [show reportCompsE [] (.dir n ch) =
        (ch.map fun c => [] ++ [c.name]) ++ reportCompsC [] ch from rfl]
    rw [List.map_append, List.map_map, reportCompsC_shift sub ch]
    simp [Function.comp]

theorem reportCompsC_shift : ∀ (sub : List String) (ch : List Entry),
    reportCompsC sub ch = (reportCompsC [] ch).map (fun l => sub ++ l)
  | _, [] => rfl
  | sub, c :: rest => by
    rw [show reportCompsC sub (c :: rest) =
        (if c.isDirB then reportCompsE (sub ++ [c.name]) c else []) ++
          reportCompsC sub rest from rfl]
    rw [show reportCompsC [] (c :: rest) =
        (if c.isDirB then reportCompsE ([] ++ [c.name]) c else []) ++
          reportCompsC [] rest from rfl]
    rw [List.map_append, reportCompsC_shift sub rest]
    congr 1
    cases hdd : c.isDirB with
    | false => simp
    | true =>
      rw [if_pos rfl, if_pos rfl]
      rw [reportCompsE_shift (sub ++ [c.name]) c,
        reportCompsE_shift ([] ++ [c.name]) c, List.map_map]
      apply List.map_congr_left
      intro l _
      show (sub ++ [c.name]) ++ l = sub ++ (([] ++ [c.name]) ++ l)
      simp

end

/-! ### readDirectory: once per descendant (permutation) -/

theorem flatMap_perm_of_forall {α β : Type} :
    ∀ (l : List α) (f g : α → List β), (∀ a ∈ l, (f a).Perm (g a)) →
      (l.flatMap f).Perm (l.flatMap g)
  | [], _, _, _ => by simp
  | a :: rest, f, g, h => by
    rw [List.flatMap_cons, List.flatMap_cons]
    exact (h a (List.mem_cons_self a rest)).append
      (flatMap_perm_of_forall rest f g
        (fun b hb => h b (List.mem_cons_of_mem a hb)))

theorem map_cons_flatMap_perm {α β : Type} :
    ∀ (l : List α) (f : α → β) (g : α → List β),
      (l.map f ++ l.flatMap g).Perm (l.flatMap (fun a => f a :: g a))
  | [], _, _ => by simp
  | a :: rest, f, g => by
    rw [List.map_cons, List.flatMap_cons, List.flatMap_cons]
    show (f a :: (List.map f rest ++ (g a ++ rest.flatMap g))).Perm
      (f a :: (g a ++ rest.flatMap (fun a => f a :: g a)))
    apply List.Perm.cons
    have s1 : List.map f rest ++ (g a ++ rest.flatMap g) =
        (List.map f rest ++ g a) ++ rest.flatMap g := by
      rw [List.append_assoc]
    have s2 : ((List.map f rest ++ g a) ++ rest.flatMap g).Perm
        ((g a ++ List.map f rest) ++ rest.flatMap g) :=
      List.Perm.append_right _ List.perm_append_comm
    have s3 : (g a ++ List.map f rest) ++ rest.flatMap g =
        g a ++ (List.map f rest ++ rest.flatMap g) := by
      rw [List.append_assoc]
    have s4 : (g a ++ (List.map f rest ++ rest.flatMap g)).Perm
        (g a ++ rest.flatMap (fun a => f a :: g a)) :=
      List.Perm.append_left _ (map_cons_flatMap_perm rest f g)
    have s5 : ((g a ++ List.map f rest) ++ rest.flatMap g).Perm
        (g a ++ rest.flatMap (fun a => f a :: g a)) := by
      rw [s3]
      exact s4
    rw [s1]
    exact s2.trans s5

theorem descPathsC_eq_flatMap : ∀ (ch : List Entry),
    descPathsC ch =
      ch.flatMap (fun c => [c.name] :: (descPathsE c).map (fun l => c.name :: l))
  | [] => rfl
  | c :: rest => by
    rw [show descPathsC (c :: rest) =
        ([c.name] :: (descPathsE c).map (fun l => c.name :: l)) ++
          descPathsC rest from rfl,
      List.flatMap_cons, descPathsC_eq_flatMap rest]

mutual

theorem reportCompsE_perm : ∀ (e : Entry), (reportCompsE [] e).Perm (descPathsE e)
  | .file n c => by simp [reportCompsE, descPathsE]
  | .dir n ch => by
    rw [show reportCompsE [] (.dir n ch) =
        (ch.map fun c => [] ++ [c.name]) ++ reportCompsC [] ch from rfl]
    rw [show descPathsE (.dir n ch) = descPathsC ch from rfl,
      descPathsC_eq_flatMap ch]
    have h2 : (ch.map fun c => [] ++ [c.name]) = ch.map (fun c => [c.name]) := by
      simp
    rw [h2]
    exact (List.Perm.append_left _ (reportCompsC_perm ch)).trans
      (map_cons_flatMap_perm ch (fun c => [c.name])
        (fun c => (descPathsE c).map (fun l => c.name :: l)))

theorem reportCompsC_perm : ∀ (ch : List Entry),
    (reportCompsC [] ch).Perm
      (ch.flatMap (fun c => (descPathsE c).map (fun l => c.name :: l)))
  | [] => by simp [reportCompsC]
  | c :: rest => by
    rw [show reportCompsC [] (c :: rest) =
        (if c.isDirB then reportCompsE ([] ++ [c.name]) c else []) ++
          reportCompsC [] rest from rfl,
      List.flatMap_cons]
    refine List.Perm.append ?_ (reportCompsC_perm rest)
    cases c with
    | file nc cc => simp [Entry.isDirB, descPathsE]
    | dir nc cch =>
      rw [if_pos (show (Entry.dir nc cch).isDirB = true from rfl)]
      show (reportCompsE ([] ++ [nc]) (.dir nc cch)).Perm
        ((descPathsE (.dir nc cch)).map (fun l => nc :: l))
      have e1 : reportCompsE ([] ++ [nc]) (.dir nc cch) =
          (reportCompsE [] (.dir nc cch)).map (fun l => nc :: l) := by
        rw [reportCompsE_shift ([] ++ [nc]) (.dir nc cch)]
        exact List.map_congr_left (fun l _ => rfl)
      rw [e1]
      exact (reportCompsE_perm (.dir nc cch)).map _

end

/-! ### readDirectory: shapes and well-formed names of reported paths -/

mutual

theorem reportCompsE_mem_ne : ∀ (e : Entry) (l : List String),
    l ∈ reportCompsE [] e → l ≠ []
  | .file n c, l, hl => by simp [reportCompsE] at hl
  | .dir n ch, l, hl => by
    rw [show reportCompsE [] (.dir n ch) =
        (ch.map fun c => [] ++ [c.name]) ++ reportCompsC [] ch from rfl] at hl
    rcases List.mem_append.mp hl with h1 | h2
    · obtain ⟨c, _, hc⟩ := List.mem_map.mp h1
      rw [← hc]
      simp
    · obtain ⟨c, _, _, t, heq, _⟩ := reportCompsC_mem_shape ch l h2
      rw [heq]
      simp

theorem reportCompsC_mem_shape : ∀ (ch : List Entry) (a : List String),
    a ∈ reportCompsC [] ch →
    ∃ c, c ∈ ch ∧ c.isDirB = true ∧ ∃ t, a = c.name :: t ∧ t ≠ []
  | [], a, ha => by simp [reportCompsC] at ha
  | c :: rest, a, ha => by
    rw [show reportCompsC [] (c :: rest) =
        (if c.isDirB then reportCompsE ([] ++ [c.name]) c else []) ++
          reportCompsC [] rest from rfl] at ha
    rcases List.mem_append.mp ha with h1 | h2
    · cases hdd : c.isDirB with
      | false =>
        rw [if_neg (by simp [hdd])] at h1
        simp at h1
      | true =>
        rw [if_pos hdd, reportCompsE_shift ([] ++ [c.name]) c] at h1
        obtain ⟨t, ht, hat⟩ := List.mem_map.mp h1
        refine ⟨c, List.mem_cons_self c rest, hdd, t, ?_,
          reportCompsE_mem_ne c t ht⟩
        rw [← hat]
        rfl
    · obtain ⟨d, hd, hdir, t, heq, hne⟩ := reportCompsC_mem_shape rest a h2
      exact ⟨d, List.mem_cons_of_mem c hd, hdir, t, heq, hne⟩

end

mutual

theorem reportCompsE_mem_wf : ∀ (e : Entry), entryWF e = true →
    ∀ l ∈ reportCompsE [] e, ∀ x ∈ l, wfName x = true
  | .file n c, _, l, hl => by simp [reportCompsE] at hl
  | .dir n ch, hwf, l, hl => by
    obtain ⟨hno, hcw⟩ := entryWF_parts hwf
    rw [show reportCompsE [] (.dir n ch) =
        (ch.map fun c => [] ++ [c.name]) ++ reportCompsC [] ch from rfl] at hl
    rcases List.mem_append.mp hl with h1 | h2
    · obtain ⟨c, hc, hceq⟩ := List.mem_map.mp h1
      intro x hx
      rw [← hceq] at hx
      have hxe : x = c.name := by simpa using hx
      rw [hxe]
      exact (childrenWF_mem hcw hc).1
    · exact reportCompsC_mem_wf ch hcw l h2

theorem reportCompsC_mem_wf : ∀ (ch : List Entry), childrenWF ch = true →
    ∀ l ∈ reportCompsC [] ch, ∀ x ∈ l, wfName x = true
  | [], _, l, hl => by simp [reportCompsC] at hl
  | c :: rest, hcw, l, hl => by
    have h3 : wfName c.name = true ∧ entryWF c = true ∧ childrenWF rest = true := by
      simpa [childrenWF, Bool.and_eq_true, and_assoc] using hcw
    rw [show reportCompsC [] (c :: rest) =
        (if c.isDirB then reportCompsE ([] ++ [c.name]) c else []) ++
          reportCompsC [] rest from rfl] at hl
    rcases List.mem_append.mp hl with h1 | h2
    · cases hdd : c.isDirB with
      | false =>
        rw [if_neg (by simp [hdd])] at h1
        simp at h1
      | true =>
        rw [if_pos hdd, reportCompsE_shift ([] ++ [c.name]) c] at h1
        obtain ⟨t, ht, hteq⟩ := List.mem_map.mp h1
        intro x hx
        rw [← hteq] at hx
        have hx2 : x ∈ c.name :: t := by simpa using hx
        rcases List.mem_cons.mp hx2 with hxe | hxt
        · rw [hxe]
          exact h3.1
        · exact reportCompsE_mem_wf c h3.2.1 t ht x hxt
    · exact reportCompsC_mem_wf rest h3.2.2 l h2

end

/-! ### readDirectory: string facts about joined well-formed paths -/

theorem eq_empty_of_toList_nil {s : String} (h : s.toList = []) : s = "" := by
  cases s with
  | mk data =>
    show String.mk data = ""
    rw [show data = [] from h]

theorem firstByte_of_data {s : String} {c : Char} {cs : List Char}
    (h : s.toList = c :: cs) : firstByte s = c := by
  unfold firstByte
  rw [h]

theorem wfName_parts {x : String} (h : wfName x = true) :
    x ≠ "" ∧ x ≠ "." ∧ x ≠ ".." ∧ '/' ∉ x.toList := by
  simp only [wfName, Bool.and_eq_true] at h
  refine ⟨by simpa using h.1.1.1, by simpa using h.1.1.2, by simpa using h.1.2, ?_⟩
  intro hm
  have hcon : x.toList.contains '/' = true := by simpa using hm
  rw [hcon] at h
  simp at h

theorem firstByte_ne_slash {x : String} (h1 : x ≠ "") (h2 : '/' ∉ x.toList) :
    firstByte x ≠ '/' := by
  cases hdata : x.toList with
  | nil => exact absurd (eq_empty_of_toList_nil hdata) h1
  | cons c cs =>
    rw [firstByte_of_data hdata]
    intro he
    rw [hdata] at h2
    rw [he] at h2
    exact h2 (List.mem_cons_self '/' cs)

theorem firstByte_append {x y : String} (h : x ≠ "") :
    firstByte (x ++ y) = firstByte x := by
  cases hdata : x.toList with
  | nil => exact absurd (eq_empty_of_toList_nil hdata) h
  | cons c cs =>
    have hxy : (x ++ y).toList = c :: (cs ++ y.toList) := by
      show (x ++ y).data = _
      rw [String.data_append, show x.data = c :: cs from hdata]
      rfl
    rw [firstByte_of_data hxy, firstByte_of_data hdata]

theorem ne_dots_of_slash_mem {s : String} (h : '/' ∈ s.toList) :
    s ≠ "." ∧ s ≠ ".." := by
  constructor
  · intro he
    rw [he] at h
    exact absurd h (by decide)
  · intro he
    rw [he] at h
    exact absurd h (by decide)

theorem joinSlash_wf_facts : ∀ (l : List String), l ≠ [] →
    (∀ x ∈ l, wfName x = true) →
    joinSlash l ≠ "." ∧ joinSlash l ≠ ".." ∧ firstByte (joinSlash l) ≠ '/' := by
  intro l
  cases l with
  | nil => intro h; exact absurd rfl h
  | cons x rest =>
    intro _ hwf
    have hx := wfName_parts (hwf x (List.mem_cons_self x rest))
    cases rest with
    | nil =>
      exact ⟨hx.2.1, hx.2.2.1, firstByte_ne_slash hx.1 hx.2.2.2⟩
    | cons y ys =>
      have hmem : '/' ∈ (joinSlash (x :: y :: ys)).toList := by
        show '/' ∈ (x ++ "/" ++ joinSlash (y :: ys)).data
        rw [String.data_append, String.data_append]
        simp
      obtain ⟨hd1, hd2⟩ := ne_dots_of_slash_mem hmem
      refine ⟨hd1, hd2, ?_⟩
      show firstByte (x ++ "/" ++ joinSlash (y :: ys)) ≠ '/'
      rw [String.append_assoc, firstByte_append hx.1]
      exact firstByte_ne_slash hx.1 hx.2.2.2

/-! ### readDirectory: breadth-within-a-directory before depth -/

theorem pairwise_of_left {α : Type} {R : α → α → Prop} :
    ∀ {l : List α}, (∀ a ∈ l, ∀ b, R a b) → l.Pairwise R := by
  intro l
  induction l with
  | nil => intro _; exact List.Pairwise.nil
  | cons a rest ih =>
    intro h
    exact List.Pairwise.cons (fun b _ => h a (List.mem_cons_self a rest) b)
      (ih (fun x hx b => h x (List.mem_cons_of_mem a hx) b))

theorem pairwise_of_right {α : Type} {R : α → α → Prop} :
    ∀ {l : List α}, (∀ b ∈ l, ∀ a, R a b) → l.Pairwise R := by
  intro l
  induction l with
  | nil => intro _; exact List.Pairwise.nil
  | cons a rest ih =>
    intro h
    exact List.Pairwise.cons
      (fun b hb => h b (List.mem_cons_of_mem a hb) a)
      (ih (fun x hx b => h x (List.mem_cons_of_mem a hx) b))

mutual

theorem noInversion_reportE : ∀ (e : Entry), entryWF e = true →
    ∀ (q : List String), noInversion q (reportCompsE [] e)
  | .file n c, _, q => by simp [reportCompsE, noInversion]
  | .dir n ch, hwf, q => by
    obtain ⟨hno, hcw⟩ := entryWF_parts hwf
    rw [show reportCompsE [] (.dir n ch) =
        (ch.map fun c => [] ++ [c.name]) ++ reportCompsC [] ch from rfl]
    unfold noInversion
    rw [List.pairwise_append]
    refine ⟨?_, noInversion_reportC ch hno hcw q, ?_⟩
    · apply pairwise_of_left
      intro a ha b
      obtain ⟨c, _, hceq⟩ := List.mem_map.mp ha
      intro hcontra
      obtain ⟨⟨x, y, ys, hin⟩, _⟩ := hcontra
      rw [← hceq] at hin
      have hlen := congrArg List.length hin
      simp at hlen
      omega
    · intro a ha b _
      obtain ⟨c, _, hceq⟩ := List.mem_map.mp ha
      intro hcontra
      obtain ⟨⟨x, y, ys, hin⟩, _⟩ := hcontra
      rw [← hceq] at hin
      have hlen := congrArg List.length hin
      simp at hlen
      omega

theorem noInversion_reportC : ∀ (ch : List Entry), nodupNames ch = true →
    childrenWF ch = true → ∀ (q : List String),
    noInversion q (reportCompsC [] ch)
  | [], _, _, q => by simp [reportCompsC, noInversion]
  | c :: rest, hno, hcw, q => by
    have h3 : wfName c.name = true ∧ entryWF c = true ∧ childrenWF rest = true := by
      simpa [childrenWF, Bool.and_eq_true, and_assoc] using hcw
    have hno2 : rest.all (fun d => d.name != c.name) = true ∧
        nodupNames rest = true := by
      simpa [nodupNames, Bool.and_eq_true] using hno
    rw [show reportCompsC [] (c :: rest) =
        (if c.isDirB then reportCompsE ([] ++ [c.name]) c else []) ++
          reportCompsC [] rest from rfl]
    unfold noInversion
    rw [List.pairwise_append]
    refine ⟨?_, noInversion_reportC rest hno2.2 h3.2.2 q, ?_⟩
    · cases hdd : c.isDirB with
      | false =>
        rw [if_neg (by simp [hdd])]
        exact List.Pairwise.nil
      | true =>
        rw [if_pos rfl, reportCompsE_shift ([] ++ [c.name]) c]
        rw [List.pairwise_map]
        cases q with
        | nil =>
          apply pairwise_of_right
          intro b hb a
          intro hcontra
          obtain ⟨_, x, hbx⟩ := hcontra
          have hb2 : c.name :: b = [x] := by simpa using hbx
          injection hb2 with _ htl
          exact reportCompsE_mem_ne c b hb htl
        | cons z q2 =>
          by_cases hz : z = c.name
          · subst hz
            have base := noInversion_reportE c h3.2.1 q2
            unfold noInversion at base
            refine base.imp ?_
            intro a b hab
            intro hcontra
            obtain ⟨hin, hch⟩ := hcontra
            refine hab ⟨?_, ?_⟩
            · obtain ⟨x, y, ys, hin2⟩ := hin
              refine ⟨x, y, ys, ?_⟩
              have hx2 : c.name :: a = c.name :: (q2 ++ x :: y :: ys) := by
                simpa using hin2
              injection hx2
            · obtain ⟨x, hx⟩ := hch
              refine ⟨x, ?_⟩
              have hx2 : c.name :: b = c.name :: (q2 ++ [x]) := by
                simpa using hx
              injection hx2
          · apply pairwise_of_right
            intro b hb a
            intro hcontra
            obtain ⟨_, x, hbx⟩ := hcontra
            have hx2 : c.name :: b = z :: (q2 ++ [x]) := by simpa using hbx
            injection hx2 with hhead _
            exact hz hhead.symm
    · intro a ha b hb
      intro hcontra
      obtain ⟨hin, hch⟩ := hcontra
      cases hdd : c.isDirB with
      | false =>
        rw [if_neg (by simp [hdd])] at ha
        simp at ha
      | true =>
        rw [if_pos hdd, reportCompsE_shift ([] ++ [c.name]) c] at ha
        obtain ⟨t, ht, hteq⟩ := List.mem_map.mp ha
        have hat : a = c.name :: t := by
          rw [← hteq]
          rfl
        obtain ⟨d, hd, hdir, sb, hbs, hbne⟩ := reportCompsC_mem_shape rest b hb
        obtain ⟨x, hbx⟩ := hch
        obtain ⟨u, v, vs, hau⟩ := hin
        cases q with
        | nil =>
          rw [hbs] at hbx
          have hb2 : d.name :: sb = [x] := by simpa using hbx
          injection hb2 with _ htl
          exact hbne htl
        | cons z q2 =>
          rw [hbs] at hbx
          have hb2 : d.name :: sb = z :: (q2 ++ [x]) := by simpa using hbx
          injection hb2 with hbz _
          rw [hat] at hau
          have ha2 : c.name :: t = z :: (q2 ++ u :: v :: vs) := by simpa using hau
          injection ha2 with hcz _
          have hall := hno2.1
          rw [List.all_eq_true] at hall
          have hdc := hall d hd
          simp only [bne_iff_ne] at hdc
          exact hdc (by rw [hbz, hcz])

end

/-- C3 (amended): over a well-formed in-memory tree (sibling names unique
and valid as components), readDirectory(p, recursive=true) on a directory
at p reports every descendant exactly once, as a path relative to p — the
reported component paths are a permutation of the canonical descendant
paths — never reports "." or ".." or a path beginning with '/', and
reports all immediate children of any directory before any entry located
inside one of its subdirectories. -/
theorem c3_readDirectory_amended (entries : List Entry) (p nm : String)
    (dch : List Entry) (out : List String)
    (hwf : entryWF (mkFS entries) = true)
    (hd : lookupPath (mkFS entries) p = some (.dir nm dch))
    (hout : memReadDirectory (mkFS entries) p true = some out) :
    (out.map splitSlash).Perm (descPathsE (.dir nm dch)) ∧
    (∀ s ∈ out, s ≠ "." ∧ s ≠ ".." ∧ firstByte s ≠ '/') ∧
    (∀ q, noInversion q (out.map splitSlash)) := by
  have hwfd : entryWF (Entry.dir nm dch) = true := by
    obtain ⟨ha, hz, hl⟩ := lookupPath_elim hd
    exact lookupGo_WF _ (mkFS entries) hwf hl
  have hout2 : out = reportEntry true none (.dir nm dch) := by
    unfold memReadDirectory at hout
    rw [hd] at hout
    have h5 : some (reportEntry true none (Entry.dir nm dch)) = some out := by
      simpa [Entry.isDirB] using hout
    injection h5 with h5
    exact h5.symm
  have hcomps : out = (reportCompsE [] (.dir nm dch)).map joinSlash := by
    rw [hout2]
    exact reportEntry_comps [] (.dir nm dch)
  have hsplit : out.map splitSlash = reportCompsE [] (.dir nm dch) := by
    rw [hcomps, List.map_map]
    have hcg : ∀ l ∈ reportCompsE [] (.dir nm dch),
        (splitSlash ∘ joinSlash) l = id l := by
      intro l hl
      have hne := reportCompsE_mem_ne _ l hl
      have hwfl := reportCompsE_mem_wf _ hwfd l hl
      cases l with
      | nil => exact absurd rfl hne
      | cons x rest =>
        show splitSlash (joinSlash (x :: rest)) = x :: rest
        exact splitSlash_join_cons rest x
          (wfName_parts (hwfl x (List.mem_cons_self x rest))).2.2.2
          (fun y hy => (wfName_parts (hwfl y (List.mem_cons_of_mem x hy))).2.2.2)
    rw [List.map_congr_left hcg, List.map_id]
  refine ⟨?_, ?_, ?_⟩
  · rw [hsplit]
    exact reportCompsE_perm (.dir nm dch)
  · intro s hs
    rw [hcomps] at hs
    obtain ⟨l, hl, hls⟩ := List.mem_map.mp hs
    rw [← hls]
    exact joinSlash_wf_facts l (reportCompsE_mem_ne _ l hl)
      (reportCompsE_mem_wf _ hwfd l hl)
  · intro q
    rw [hsplit]
    exact noInversion_reportE (.dir nm dch) hwfd q

theorem c3_readDirectory_amended_witness :
    ((["b", "d.txt", "b/c.txt"].map splitSlash).Perm
      (descPathsE (.dir "a" [.dir "b" [.file "c.txt" [104, 105]],
        .file "d.txt" [120]]))) ∧
    (∀ s ∈ ["b", "d.txt", "b/c.txt"], s ≠ "." ∧ s ≠ ".." ∧ firstByte s ≠ '/') ∧
    (∀ q, noInversion q (["b", "d.txt", "b/c.txt"].map splitSlash)) :=
  c3_readDirectory_amended
    [.dir "a" [.dir "b" [.file "c.txt" [104, 105]], .file "d.txt" [120]]]
    "/a" "a" [.dir "b" [.file "c.txt" [104, 105]], .file "d.txt" [120]]
    ["b", "d.txt", "b/c.txt"] (by decide) (by decide) (by decide)

end XCB
